import Mathlib

/-!
Shallow embedding of `reV/handlers/transmission.py` (class `TransmissionFeatures`).

Python floats are modelled as rationals (`ℚ`), so all capacity arithmetic is
exact.  Python exceptions (`HandlerKeyError`, `RuntimeError`, `TypeError`,
`ZeroDivisionError`, `ValueError`, `AttributeError`) are modelled by the
`Except Err` monad.  The mutable `self._features` dictionary is an association
list `List (Nat × Feature)` in insertion order, and `self._available_mask`
together with `self._feature_gid_list` is the parallel `List Bool` in the same
order.  A feature record `{'type': ..., 'avail_cap': ..., 'lines': ...}` is a
`Feature`; a key that is absent or holds Python `None` is modelled as `none`
(both uses make every numeric access raise, which is all the code ever does
with them).

The unbounded `while True` loop of `_spread_substation_load` is embedded with
an explicit fuel argument (`spreadGo`), started at `lines.length + 1`: every
recursive step strictly shrinks the line list, so this fuel is never
exhausted (the fuel-out branch is unreachable; see the `spreadGo_ok` lemma).
-/

/-- Python exception kinds raised by the translated code paths. -/
inductive Err where
  | keyError
  | valueError
  | typeError
  | runtimeError
  | zeroDivisionError
  | attributeError
  | fuelOut
deriving DecidableEq, Repr

/-- One feature record of `self._features`: `{'type', 'avail_cap', 'lines'}`. -/
structure Feature where
  ftype : String
  availCap : Option ℚ
  lines : List Nat
deriving DecidableEq, Repr

/-- The constructor parameters of `TransmissionFeatures.__init__`. -/
structure Config where
  lineTieInCost : ℚ := 14000
  lineCost : ℚ := 3667
  stationTieInCost : ℚ := 0
  centerTieInCost : ℚ := 0
  sinkTieInCost : ℚ := 0
  availCapFrac : ℚ := 1/10
deriving DecidableEq, Repr

/-- The mutable object state: cost parameters, `self._features` (association
list in insertion order = `self._feature_gid_list` order), and
`self._available_mask`. -/
structure TF where
  cfg : Config
  features : List (Nat × Feature)
  mask : List Bool
deriving DecidableEq, Repr

/-- Dictionary lookup `self._features[gid]` (first entry with the key). -/
def lookupF (gid : Nat) : List (Nat × Feature) → Option Feature
  | [] => none
  | p :: ps => if p.1 = gid then some p.2 else lookupF gid ps

/-- `self._feature_gid_list.index(gid)`: index of the first entry with key
`gid`, `none` modelling the `ValueError` of a missing gid. -/
def gidIndex (gid : Nat) : List (Nat × Feature) → Option Nat
  | [] => none
  | p :: ps => if p.1 = gid then some 0 else (gidIndex gid ps).map (· + 1)

/-- In-place update `self._features[gid]['avail_cap'] = c` (the dictionary
entry for `gid` gets its `avail_cap` replaced). -/
def setCap (tf : TF) (gid : Nat) (c : ℚ) : TF :=
  { tf with features := (tf.features.map
      (fun p => if p.1 = gid then (p.1, { p.2 with availCap := some c }) else p)) }

/-- `_calc_cost`: `distance * line_cost * transmission_multiplier + tie_in_cost`. -/
def calcCost (distance lineCost tieInCost mult : ℚ) : ℚ :=
  distance * lineCost * mult + tieInCost

/-- The running loop of `_substation_capacity`: accumulates the capacity sum
and the running maximum over members of type `'TransLine'`, and counts the
`warn` calls for members of any other type.  A member gid missing from the
dictionary raises `KeyError`; a `TransLine` member without a numeric
`avail_cap` raises (`None` arithmetic). -/
def subCapAux (tf : TF) : List Nat → ℚ → ℚ → Nat → Except Err (ℚ × ℚ × Nat)
  | [], acc, mx, w => .ok (acc, mx, w)
  | g :: gs, acc, mx, w =>
    match lookupF g tf.features with
    | none => .error .keyError
    | some f =>
      if f.ftype = "TransLine" then
        match f.availCap with
        | none => .error .typeError
        | some c => subCapAux tf gs (acc + c) (if c > mx then c else mx) w
      else
        subCapAux tf gs acc mx (w + 1)

/-- `_substation_capacity(line_gids, line_limited)`: half the summed member
capacity, clamped to the largest member line in line-limited mode.  The second
component counts the emitted warnings. -/
def substationCapacity (tf : TF) (lineGids : List Nat) (lineLimited : Bool) :
    Except Err (ℚ × Nat) :=
  match subCapAux tf lineGids 0 0 0 with
  | .error e => .error e
  | .ok (s, mx, w) =>
    .ok ((if lineLimited ∧ mx < s / 2 then mx else s / 2), w)

/-- `available_capacity(gid, **kwargs)`: the stored field for simple features
(`none` = Python `None` for the unbounded sink), the derived value for a
substation. -/
def availableCapacity (tf : TF) (gid : Nat) (lineLimited : Bool) :
    Except Err (Option ℚ) :=
  match lookupF gid tf.features with
  | none => .error .keyError
  | some f =>
    if f.ftype = "Substation" then
      match substationCapacity tf f.lines lineLimited with
      | .error e => .error e
      | .ok (a, _) => .ok (some a)
    else .ok f.availCap

/-- `_update_availability(gid)`: recompute the capacity and flip the mask
entry to `False` exactly when it equals 0 (`None == 0` is `False` in Python,
hence the `some 0` test). -/
def updateAvailability (tf : TF) (gid : Nat) (lineLimited : Bool) :
    Except Err TF :=
  match availableCapacity tf gid lineLimited with
  | .error e => .error e
  | .ok ac =>
    if ac = some 0 then
      match gidIndex gid tf.features with
      | none => .error .valueError
      | some i => .ok { tf with mask := tf.mask.set i false }
    else .ok tf

/-- `check_availability(gid)`: read the cached mask entry. -/
def checkAvailability (tf : TF) (gid : Nat) : Except Err Bool :=
  match gidIndex gid tf.features with
  | none => .error .valueError
  | some i => .ok (tf.mask.getD i true)

/-- `_connect(gid, capacity)`: raise `RuntimeError` when the stored capacity
is below the request, otherwise subtract the request in place. -/
def tfConnect (tf : TF) (gid : Nat) (capacity : ℚ) : Except Err TF :=
  match lookupF gid tf.features with
  | none => .error .keyError
  | some f =>
    match f.availCap with
    | none => .error .typeError
    | some a =>
      if a < capacity then .error .runtimeError
      else .ok (setCap tf gid (a - capacity))

/-- The body of `_fill_lines` after `apply_cap = capacity / len(line_gids)`:
walk the (gid, snapshot-capacity) pairs; every line whose snapshot is below
`applyCap` is filled to its maximum (reserve its whole snapshot, deduct it
from the outstanding capacity, drop it from the kept list). -/
def fillGo (applyCap : ℚ) (tf : TF) :
    List (Nat × ℚ) → ℚ → Except Err (TF × List (Nat × ℚ) × ℚ)
  | [], cap => .ok (tf, [], cap)
  | p :: ps, cap =>
    if p.2 < applyCap then
      match tfConnect tf p.1 p.2 with
      | .error e => .error e
      | .ok tf1 =>
        match fillGo applyCap tf1 ps (cap - p.2) with
        | .error e => .error e
        | .ok (tf2, kept, c2) => .ok (tf2, kept, c2)
    else
      match fillGo applyCap tf ps cap with
      | .error e => .error e
      | .ok (tf2, kept, c2) => .ok (tf2, p :: kept, c2)

/-- `_fill_lines(line_gids, line_caps, capacity)`; the parallel gid/capacity
arrays are modelled as one list of pairs.  An empty line list makes
`capacity / len(line_gids)` raise `ZeroDivisionError`. -/
def fillLines (tf : TF) (lines : List (Nat × ℚ)) (capacity : ℚ) :
    Except Err (TF × List (Nat × ℚ) × ℚ) :=
  match lines with
  | [] => .error .zeroDivisionError
  | _ => fillGo (capacity / lines.length) tf lines capacity

/-- The final loop of `_spread_substation_load`:
`for gid in lines: self._connect(gid, apply_cap)`. -/
def connectEach (tf : TF) : List (Nat × ℚ) → ℚ → Except Err TF
  | [], _ => .ok tf
  | p :: ps, amt =>
    match tfConnect tf p.1 amt with
    | .error e => .error e
    | .ok tf1 => connectEach tf1 ps amt

/-- The `while True` loop of `_spread_substation_load`, fuelled.  Each pass
calls `_fill_lines`; when lines were removed the loop repeats on the survivors,
otherwise the (unchanged) outstanding capacity is split equally over the
(unchanged) surviving lines.  The returned `Nat` counts the `_fill_lines`
iterations executed. -/
def spreadGo (tf : TF) (lines : List (Nat × ℚ)) (cap : ℚ) :
    Nat → Except Err (TF × Nat)
  | 0 => .error .fuelOut
  | fuel + 1 =>
    match fillLines tf lines cap with
    | .error e => .error e
    | .ok (tf1, kept, cap1) =>
      if kept.length < lines.length then
        match spreadGo tf1 kept cap1 fuel with
        | .error e => .error e
        | .ok (tf2, k) => .ok (tf2, k + 1)
      else
        match connectEach tf1 kept (cap1 / kept.length) with
        | .error e => .error e
        | .ok tf2 => .ok (tf2, 1)

/-- `_spread_substation_load(line_gids, line_caps, capacity)`.  Fuel
`lines.length + 1` always suffices: every repeat strictly shrinks the list. -/
def spreadLoad (tf : TF) (lines : List (Nat × ℚ)) (cap : ℚ) :
    Except Err (TF × Nat) :=
  spreadGo tf lines cap (lines.length + 1)

/-- `np.argmax` over the capacity components of (gid, capacity) pairs: first
pair carrying the maximum capacity; `none` models the error on an empty array. -/
def argmaxPair : List (Nat × ℚ) → Option (Nat × ℚ)
  | [] => none
  | p :: ps => some (ps.foldl (fun b q => if q.2 > b.2 then q else b) p)

/-- `line_caps = np.array([self._features[gid]['avail_cap'] for gid in ...])`:
reading a member's numeric capacity; a missing gid or a missing/`None`
`avail_cap` raises. -/
def getLineCaps (tf : TF) : List Nat → Except Err (List ℚ)
  | [] => .ok []
  | g :: gs =>
    match lookupF g tf.features with
    | none => .error .keyError
    | some f =>
      match f.availCap with
      | none => .error .keyError
      | some c =>
        match getLineCaps tf gs with
        | .error e => .error e
        | .ok cs => .ok (c :: cs)

/-- `_connect_to_substation(line_gids, capacity, line_limited)`: in
line-limited mode route everything to the line `np.argmax` picks; otherwise
drop the zero-capacity lines (`np.nonzero`) and spread. -/
def connectToSubstation (tf : TF) (lineGids : List Nat) (capacity : ℚ)
    (lineLimited : Bool) : Except Err TF :=
  match getLineCaps tf lineGids with
  | .error e => .error e
  | .ok caps =>
    if lineLimited then
      match argmaxPair (lineGids.zip caps) with
      | none => .error .valueError
      | some p => tfConnect tf p.1 capacity
    else
      match spreadLoad tf ((lineGids.zip caps).filter (fun p => p.2 ≠ 0))
          capacity with
      | .error e => .error e
      | .ok (tf1, _) => .ok tf1

/-- The `connected = True` branch of `connect`: when `apply` is set, dispatch
on the feature type (`TransLine`/`LoadCen` reserve directly, `Substation`
spreads, anything else is a no-op) and then refresh the availability cache for
`gid`.  Note that the final `self._update_availability(gid)` is called without
kwargs, hence with the default `line_limited=False`. -/
def connectFeasible (tf : TF) (gid : Nat) (capacity : ℚ) (app : Bool)
    (lineLimited : Bool) : Except Err (Bool × TF) :=
  if app then
    match lookupF gid tf.features with
    | none => .error .keyError
    | some f =>
      match (if f.ftype = "TransLine" then tfConnect tf gid capacity
             else if f.ftype = "Substation" then
               connectToSubstation tf f.lines capacity lineLimited
             else if f.ftype = "LoadCen" then tfConnect tf gid capacity
             else .ok tf) with
      | .error e => .error e
      | .ok tf1 =>
        match updateAvailability tf1 gid false with
        | .error e => .error e
        | .ok tf2 => .ok (true, tf2)
  else .ok (true, tf)

/-- `connect(gid, capacity, apply, **kwargs)`: infeasible (no mutation) when
the gid is masked off, or when its available capacity is bounded and below the
request; otherwise run `connectFeasible`. -/
def connect (tf : TF) (gid : Nat) (capacity : ℚ) (app : Bool)
    (lineLimited : Bool) : Except Err (Bool × TF) :=
  match checkAvailability tf gid with
  | .error e => .error e
  | .ok avail =>
    if avail then
      match availableCapacity tf gid lineLimited with
      | .error e => .error e
      | .ok ac =>
        match ac with
        | some a =>
          if capacity > a then .ok (false, tf)
          else connectFeasible tf gid capacity app lineLimited
        | none => connectFeasible tf gid capacity app lineLimited
    else .ok (false, tf)

/-- The tie-in-cost selection of `cost` (unknown feature types warn and get 0). -/
def tieInFor (cfg : Config) (ftype : String) : ℚ :=
  if ftype = "TransLine" then cfg.lineTieInCost
  else if ftype = "Substation" then cfg.stationTieInCost
  else if ftype = "LoadCen" then cfg.centerTieInCost
  else if ftype = "PCALoadCen" then cfg.sinkTieInCost
  else 0

/-- `cost(gid, distance, transmission_multiplier, capacity, **kwargs)`:
compute the linear cost, then, when a capacity is given, override it with the
`None` sentinel whenever `connect(gid, capacity, apply=False)` is infeasible. -/
def cost (tf : TF) (gid : Nat) (distance mult : ℚ) (capacity : Option ℚ)
    (lineLimited : Bool) : Except Err (Option ℚ × TF) :=
  match lookupF gid tf.features with
  | none => .error .keyError
  | some f =>
    let c := calcCost distance tf.cfg.lineCost (tieInFor tf.cfg f.ftype) mult
    match capacity with
    | none => .ok (some c, tf)
    | some cap =>
      match connect tf gid cap false lineLimited with
      | .error e => .error e
      | .ok (conn, tf1) => .ok ((if conn then some c else none), tf1)

/-- One row of the supply-curve transmission mapping table.
`transmissionMultiplier = none` models a row without that optional column
(`row.get('transmission_multiplier', 1)`). -/
structure Row where
  transLineGid : Nat
  category : String
  acCap : ℚ
  transGids : List Nat
  distMi : ℚ
  transmissionMultiplier : Option ℚ
deriving DecidableEq, Repr

/-- The feature record `_features_from_table` builds from one (first) row of a
gid group.  A key the Python code does not set is modelled as `none`/`[]`. -/
def featureOfRow (cfg : Config) (r : Row) : Feature :=
  if r.category = "TransLine" then ⟨r.category, some (r.acCap * cfg.availCapFrac), []⟩
  else if r.category = "Substation" then ⟨r.category, none, r.transGids⟩
  else if r.category = "LoadCen" then ⟨r.category, some (r.acCap * cfg.availCapFrac), []⟩
  else if r.category = "PCALoadCen" then ⟨r.category, none, []⟩
  else ⟨r.category, none, []⟩

/-- The gid keys produced by `trans_table.groupby('trans_line_gid')`:
the distinct gids in ascending order (pandas sorts group keys). -/
def groupGids (rows : List Row) : List Nat :=
  List.insertionSort (fun a b => a ≤ b) (rows.map Row.transLineGid).dedup

/-- `groupby('trans_line_gid').first()` for one gid: the first row of the
group in table order. -/
def firstRowFor (rows : List Row) (g : Nat) : Option Row :=
  rows.find? (fun r => r.transLineGid = g)

/-- `_features_from_table(trans_table)`. -/
def featuresFromTable (cfg : Config) (rows : List Row) : List (Nat × Feature) :=
  (groupGids rows).filterMap
    (fun g => (firstRowFor rows g).map (fun r => (g, featureOfRow cfg r)))

/-- The `trans_table` argument: either an in-memory DataFrame or a path whose
parsed contents are the given rows (the file read itself is not modelled). -/
inductive TransTable where
  | df (rows : List Row)
  | csvPath (rows : List Row)
  | jsonPath (rows : List Row)
  | otherPath
deriving DecidableEq, Repr

/-- `_parse_table`: DataFrames pass through, `.csv`/`.json` paths are read,
anything else raises `ValueError`. -/
def parseTable : TransTable → Except Err (List Row)
  | .df rows => .ok rows
  | .csvPath rows => .ok rows
  | .jsonPath rows => .ok rows
  | .otherPath => .error .valueError

/-- `TransmissionFeatures(trans_table, ...)` construction (table branch,
`features=None`): parse the table, build the feature dictionary, and set the
availability mask to all-ones. -/
def mkTF (cfg : Config) (t : TransTable) : Except Err TF :=
  match parseTable t with
  | .error e => .error e
  | .ok rows =>
    .ok { cfg := cfg, features := featuresFromTable cfg rows,
          mask := List.replicate (featuresFromTable cfg rows).length true }

/-- The row loop of `feature_costs`: one `cost` per table row, threading the
shared feature state, aborting the whole batch on the first failure. -/
def rowCosts (tf : TF) (capacity : Option ℚ) (lineLimited : Bool) :
    List Row → Except Err (List (Option ℚ) × TF)
  | [] => .ok ([], tf)
  | r :: rs =>
    match cost tf r.transLineGid r.distMi (r.transmissionMultiplier.getD 1)
        capacity lineLimited with
    | .error e => .error e
    | .ok (c, tf1) =>
      match rowCosts tf1 capacity lineLimited rs with
      | .error e => .error e
      | .ok (cs, tf2) => .ok (c :: cs, tf2)

/-- `feature_costs(trans_table, capacity, ...)`.  The catalog is built from
the parsed table, but the row loop iterates `trans_table.iterrows()` on the
RAW argument: a path input (a `str`) has no `.iterrows` and raises
`AttributeError`.  A `none` entry of the result is the `None` cost that
`np.array(costs, dtype='float32')` turns into NaN. -/
def featureCosts (cfg : Config) (t : TransTable) (capacity : Option ℚ)
    (lineLimited : Bool) : Except Err (List (Option ℚ)) :=
  match mkTF cfg t with
  | .error e => .error e
  | .ok tf =>
    match t with
    | .df rows =>
      match rowCosts tf capacity lineLimited rows with
      | .error e => .error e
      | .ok (cs, _) => .ok cs
    | _ => .error .attributeError

/-- The current numeric capacity of a gid, defaulting to 0 (used only to state
theorems; the executable paths above never take the default). -/
def capOf (tf : TF) (g : Nat) : ℚ :=
  match lookupF g tf.features with
  | some f => match f.availCap with | some c => c | none => 0
  | none => 0

/-- Modelled from the spec, §4.3: the capacities of the substation members
whose kind is TransLine (the quantities the spec sums and maximises). -/
def memberLineCaps (tf : TF) (ms : List Nat) : List ℚ :=
  ms.filterMap (fun g =>
    match lookupF g tf.features with
    | some f => if f.ftype = "TransLine" then f.availCap else none
    | none => none)

/-- Whether a member gid resolves to a TransLine (for counting the warned,
skipped members). -/
def memberIsTransLine (tf : TF) (g : Nat) : Bool :=
  match lookupF g tf.features with
  | some f => f.ftype = "TransLine"
  | none => false

/-- The (gid, capacity) pairs `np.nonzero` keeps for the spreading step. -/
def nonzeroLines (tf : TF) (ms : List Nat) : List (Nat × ℚ) :=
  (ms.map (fun g => (g, capOf tf g))).filter (fun p => p.2 ≠ 0)

/-! Concrete catalog states used by the example-based claims. -/

/-- The spec example of §8: a substation whose two member lines have
available capacities 10 and 3. -/
def tfTwoLines : TF :=
  { cfg := {}, features := [(0, ⟨"Substation", none, [1, 2]⟩),
      (1, ⟨"TransLine", some 10, []⟩), (2, ⟨"TransLine", some 3, []⟩)],
    mask := [true, true, true] }

/-- A substation whose member lines have capacities 2 and 10: a feasible
`connect` of 6 drains the first member line to 0. -/
def tfDrain : TF :=
  { cfg := {}, features := [(0, ⟨"Substation", none, [1, 2]⟩),
      (1, ⟨"TransLine", some 2, []⟩), (2, ⟨"TransLine", some 10, []⟩)],
    mask := [true, true, true] }

/-- The state of `tfDrain` after `connect(0, 6, apply=True)`. -/
def tfDrainAfter : TF :=
  { cfg := {}, features := [(0, ⟨"Substation", none, [1, 2]⟩),
      (1, ⟨"TransLine", some 0, []⟩), (2, ⟨"TransLine", some 6, []⟩)],
    mask := [true, true, true] }

/-- A substation whose only member line has zero capacity: the request 0
passes the feasibility check but the spreading loop divides by zero. -/
def tfZeroSub : TF :=
  { cfg := {}, features := [(0, ⟨"Substation", none, [1]⟩),
      (1, ⟨"TransLine", some 0, []⟩)], mask := [true, true] }

/-- The table row of the §8 example: a TransLine with `ac_cap=100`. -/
def rowLine : Row := ⟨3, "TransLine", 100, [], 10, none⟩

/-- The catalog built from `[rowLine]` with the default configuration
(fraction 1/10, so the line starts at available capacity 10). -/
def tfLine : TF :=
  { cfg := {}, features := featuresFromTable {} [rowLine],
    mask := List.replicate (featuresFromTable {} [rowLine]).length true }

/-- A one-line catalog used as a plain TransLine whose capacity 5 is drained
by a matching request. -/
def tfSmall : TF :=
  { cfg := {}, features := [(3, ⟨"TransLine", some 5, []⟩)], mask := [true] }

/-- The state of `tfSmall` after `connect(3, 5, apply=True)`: capacity 0 and
availability mask flipped off. -/
def tfSmallAfter : TF :=
  { cfg := {}, features := [(3, ⟨"TransLine", some 0, []⟩)], mask := [false] }

/-- A substation with member capacities 4 and 10 plus one LoadCen member
(which a `_substation_capacity` walk warns about and skips). -/
def tfMixed : TF :=
  { cfg := {}, features := [(0, ⟨"Substation", none, [1, 2, 3]⟩),
      (1, ⟨"TransLine", some 4, []⟩), (2, ⟨"TransLine", some 10, []⟩),
      (3, ⟨"LoadCen", some 7, []⟩)], mask := [true, true, true, true] }

/-! Predicates used to state the theorems. -/

/-- Each (gid, capacity) pair of a spreading work list mirrors the catalog:
the gid resolves and its stored capacity equals the snapshot. -/
def linesMatch (tf : TF) (lines : List (Nat × ℚ)) : Prop :=
  ∀ p ∈ lines, ∃ f, lookupF p.1 tf.features = some f ∧ f.availCap = some p.2

/-- Capacity mutation preserves the shape of every record: same type, same
member list, and a numeric capacity stays numeric. -/
def sameShape (tf tf' : TF) : Prop :=
  ∀ g, match lookupF g tf.features, lookupF g tf'.features with
    | some f, some f' =>
      f'.ftype = f.ftype ∧ f'.lines = f.lines ∧ (f.availCap.isSome → f'.availCap.isSome)
    | none, none => True
    | _, _ => False

/-- What every internal reservation step leaves untouched: the configuration,
the availability mask, the gid index, and the record shapes. -/
def frameOK (tf tf' : TF) : Prop :=
  tf'.cfg = tf.cfg ∧ tf'.mask = tf.mask ∧
    (∀ g, gidIndex g tf'.features = gidIndex g tf.features) ∧ sameShape tf tf'

/-- All members of a substation resolve to TransLine records with a
nonnegative numeric capacity. -/
def membersAreLines (tf : TF) (ms : List Nat) : Prop :=
  ∀ g ∈ ms, ∃ fg, lookupF g tf.features = some fg ∧ fg.ftype = "TransLine" ∧
    ∃ c, fg.availCap = some c ∧ 0 ≤ c

/-! Helper lemmas: feature-type string literals. -/

@[simp] theorem substation_ne_transLine :
    (("Substation" : String) = "TransLine") = False := by decide

@[simp] theorem loadCen_ne_transLine :
    (("LoadCen" : String) = "TransLine") = False := by decide

@[simp] theorem loadCen_ne_substation :
    (("LoadCen" : String) = "Substation") = False := by decide

@[simp] theorem transLine_ne_substation :
    (("TransLine" : String) = "Substation") = False := by decide

@[simp] theorem pcaLoadCen_ne_transLine :
    (("PCALoadCen" : String) = "TransLine") = False := by decide

@[simp] theorem pcaLoadCen_ne_substation :
    (("PCALoadCen" : String) = "Substation") = False := by decide

@[simp] theorem pcaLoadCen_ne_loadCen :
    (("PCALoadCen" : String) = "LoadCen") = False := by decide

@[simp] theorem transLine_ne_loadCen :
    (("TransLine" : String) = "LoadCen") = False := by decide

@[simp] theorem substation_ne_loadCen :
    (("Substation" : String) = "LoadCen") = False := by decide

/-! Helper lemmas: the association list primitives. -/

theorem lookupF_setCap_self (tf : TF) (gid : Nat) (c : ℚ) :
    lookupF gid (setCap tf gid c).features =
      (lookupF gid tf.features).map (fun f => { f with availCap := some c }) := by
  show lookupF gid (tf.features.map _) = _
  induction tf.features with
  | nil => rfl
  | cons p ps ih =>
    by_cases h : p.1 = gid <;> simp [lookupF, h, ih]

theorem lookupF_setCap_ne (tf : TF) (gid g : Nat) (c : ℚ) (h : g ≠ gid) :
    lookupF g (setCap tf gid c).features = lookupF g tf.features := by
  show lookupF g (tf.features.map _) = _
  induction tf.features with
  | nil => rfl
  | cons p ps ih =>
    by_cases h2 : p.1 = g
    · subst h2
      have h1 : ¬ p.1 = gid := h
      simp [lookupF, h1, ih]
    · by_cases h1 : p.1 = gid
      · subst h1
        simp [lookupF, h2, ih, Ne.symm h]
      · simp [lookupF, h1, h2, ih]

theorem gidIndex_setCap (tf : TF) (gid g : Nat) (c : ℚ) :
    gidIndex g (setCap tf gid c).features = gidIndex g tf.features := by
  show gidIndex g (tf.features.map _) = _
  induction tf.features with
  | nil => rfl
  | cons p ps ih =>
    by_cases h2 : p.1 = g
    · subst h2
      by_cases h1 : p.1 = gid <;> simp [gidIndex, h1, ih]
    · by_cases h1 : p.1 = gid
      · subst h1
        simp [gidIndex, h2, ih]
      · simp [gidIndex, h1, h2, ih]

@[simp] theorem setCap_mask (tf : TF) (gid : Nat) (c : ℚ) :
    (setCap tf gid c).mask = tf.mask := rfl

@[simp] theorem setCap_cfg (tf : TF) (gid : Nat) (c : ℚ) :
    (setCap tf gid c).cfg = tf.cfg := rfl

theorem gidIndex_of_lookupF {gid : Nat} {fs : List (Nat × Feature)}
    {f : Feature} (h : lookupF gid fs = some f) : ∃ i, gidIndex gid fs = some i := by
  induction fs with
  | nil => simp [lookupF] at h
  | cons p ps ih =>
    by_cases h1 : p.1 = gid
    · exact ⟨0, by simp [gidIndex, h1]⟩
    · simp only [lookupF, h1, if_false] at h
      obtain ⟨i, hi⟩ := ih h
      exact ⟨i + 1, by simp [gidIndex, h1, hi]⟩

/-! Helper lemmas: frame properties of the reservation steps. -/

theorem sameShape_refl (tf : TF) : sameShape tf tf := by
  intro g
  cases h : lookupF g tf.features <;> simp [sameShape, h]

theorem sameShape_trans {a b c : TF} (h1 : sameShape a b) (h2 : sameShape b c) :
    sameShape a c := by
  intro g
  have ha := h1 g
  have hb := h2 g
  cases hA : lookupF g a.features <;> rw [hA] at ha <;>
    cases hB : lookupF g b.features <;> rw [hB] at ha hb <;>
      cases hC : lookupF g c.features <;> rw [hC] at hb <;> simp_all

theorem frameOK_refl (tf : TF) : frameOK tf tf :=
  ⟨rfl, rfl, fun _ => rfl, sameShape_refl tf⟩

theorem frameOK_trans {a b c : TF} (h1 : frameOK a b) (h2 : frameOK b c) :
    frameOK a c :=
  ⟨h2.1.trans h1.1, h2.2.1.trans h1.2.1,
    fun g => (h2.2.2.1 g).trans (h1.2.2.1 g),
    sameShape_trans h1.2.2.2 h2.2.2.2⟩

theorem setCap_frameOK (tf : TF) (gid : Nat) (c : ℚ) :
    frameOK tf (setCap tf gid c) := by
  refine ⟨rfl, rfl, fun g => gidIndex_setCap tf gid g c, ?_⟩
  intro g
  by_cases hg : g = gid
  · subst hg
    rw [lookupF_setCap_self]
    cases lookupF g tf.features <;> simp
  · rw [lookupF_setCap_ne tf gid g c hg]
    cases lookupF g tf.features <;> simp


theorem tfConnect_frameOK {tf tf' : TF} {gid : Nat} {c : ℚ}
    (h : tfConnect tf gid c = .ok tf') : frameOK tf tf' := by
  unfold tfConnect at h
  split at h
  · simp at h
  · split at h
    · simp at h
    · split at h
      · simp at h
      · have h1 := Except.ok.inj h
        subst h1
        apply setCap_frameOK

theorem fillGo_frameOK {A : ℚ} {lines : List (Nat × ℚ)} :
    ∀ {tf : TF} {cap : ℚ} {tf' : TF} {kept : List (Nat × ℚ)} {cap' : ℚ},
    fillGo A tf lines cap = .ok (tf', kept, cap') → frameOK tf tf' := by
  induction lines with
  | nil =>
    intro tf cap tf' kept cap' h
    simp only [fillGo] at h
    obtain ⟨h1, -, -⟩ := Prod.mk.injEq .. ▸ Except.ok.inj h
    subst h1
    exact frameOK_refl tf
  | cons p ps ih =>
    intro tf cap tf' kept cap' h
    simp only [fillGo] at h
    split at h
    · split at h
      · simp at h
      · rename_i tf1 htf1
        split at h
        · simp at h
        · rename_i r hr
          obtain ⟨h1, -, -⟩ := Prod.mk.injEq .. ▸ Except.ok.inj h
          subst h1
          exact frameOK_trans (tfConnect_frameOK htf1) (ih hr)
    · split at h
      · simp at h
      · rename_i r hr
        obtain ⟨h1, -, -⟩ := Prod.mk.injEq .. ▸ Except.ok.inj h
        subst h1
        exact ih hr

theorem connectEach_frameOK {lines : List (Nat × ℚ)} :
    ∀ {tf tf' : TF} {amt : ℚ}, connectEach tf lines amt = .ok tf' →
      frameOK tf tf' := by
  induction lines with
  | nil =>
    intro tf tf' amt h
    simp only [connectEach] at h
    obtain rfl := Except.ok.inj h
    exact frameOK_refl tf
  | cons p ps ih =>
    intro tf tf' amt h
    simp only [connectEach] at h
    split at h
    · simp at h
    · rename_i tf1 htf1
      exact frameOK_trans (tfConnect_frameOK htf1) (ih h)

theorem fillLines_frameOK {tf : TF} {lines : List (Nat × ℚ)} {cap : ℚ}
    {tf' : TF} {kept : List (Nat × ℚ)} {cap' : ℚ}
    (h : fillLines tf lines cap = .ok (tf', kept, cap')) : frameOK tf tf' := by
  unfold fillLines at h
  split at h
  · simp at h
  · exact fillGo_frameOK h

theorem spreadGo_frameOK {fuel : Nat} :
    ∀ {tf : TF} {lines : List (Nat × ℚ)} {cap : ℚ} {tf' : TF} {k : Nat},
    spreadGo tf lines cap fuel = .ok (tf', k) → frameOK tf tf' := by
  induction fuel with
  | zero => intro tf lines cap tf' k h; simp [spreadGo] at h
  | succ fuel ih =>
    intro tf lines cap tf' k h
    simp only [spreadGo] at h
    split at h
    · simp at h
    · rename_i r hfill
      split at h
      · split at h
        · simp at h
        · rename_i r2 hrec
          obtain ⟨h1, -⟩ := Prod.mk.injEq .. ▸ Except.ok.inj h
          subst h1
          exact frameOK_trans (fillLines_frameOK hfill) (ih hrec)
      · split at h
        · simp at h
        · rename_i tf2 hce
          obtain ⟨h1, -⟩ := Prod.mk.injEq .. ▸ Except.ok.inj h
          subst h1
          exact frameOK_trans (fillLines_frameOK hfill) (connectEach_frameOK hce)

theorem connectToSubstation_frameOK {tf : TF} {ms : List Nat} {cap : ℚ}
    {ll : Bool} {tf' : TF}
    (h : connectToSubstation tf ms cap ll = .ok tf') : frameOK tf tf' := by
  unfold connectToSubstation at h
  split at h
  · simp at h
  · split at h
    · split at h
      · simp at h
      · exact tfConnect_frameOK h
    · split at h
      · simp at h
      · rename_i r hsp
        obtain rfl := Except.ok.inj h
        exact spreadGo_frameOK hsp

/-! Helper lemmas: the availability mask as a `List Bool`. -/

theorem getD_set_false {m : List Bool} :
    ∀ {i j : Nat}, m.getD i true = false → (m.set j false).getD i true = false := by
  induction m with
  | nil => intro i j h; simp [List.getD] at h
  | cons a as ih =>
    intro i j h
    cases j with
    | zero =>
      cases i with
      | zero => simp [List.getD_cons_zero]
      | succ i => simpa [List.getD_cons_succ] using h
    | succ j =>
      cases i with
      | zero => simpa [List.getD_cons_zero] using h
      | succ i =>
        simp only [List.set_cons_succ, List.getD_cons_succ] at h ⊢
        exact ih h

theorem getD_set_ne {m : List Bool} :
    ∀ {i j : Nat} (b : Bool), i ≠ j → (m.set j b).getD i true = m.getD i true := by
  induction m with
  | nil => intro i j b _; simp
  | cons a as ih =>
    intro i j b hne
    cases j with
    | zero =>
      cases i with
      | zero => exact absurd rfl hne
      | succ i => simp [List.getD_cons_succ]
    | succ j =>
      cases i with
      | zero => simp [List.getD_cons_zero]
      | succ i =>
        simp only [List.set_cons_succ, List.getD_cons_succ]
        exact ih b (fun hc => hne (by rw [hc]))

theorem getD_set_self {m : List Bool} :
    ∀ {i : Nat}, i < m.length → (m.set i false).getD i true = false := by
  induction m with
  | nil => intro i h; simp at h
  | cons a as ih =>
    intro i h
    cases i with
    | zero => simp [List.getD_cons_zero]
    | succ i =>
      simp only [List.set_cons_succ, List.getD_cons_succ]
      exact ih (Nat.lt_of_succ_lt_succ h)

/-! Helper lemmas: capacity queries depend only on the feature dictionary. -/

theorem subCapAux_features_eq {tf1 tf2 : TF} (hf : tf1.features = tf2.features) :
    ∀ (gs : List Nat) (acc mx : ℚ) (w : Nat),
      subCapAux tf1 gs acc mx w = subCapAux tf2 gs acc mx w := by
  intro gs
  induction gs with
  | nil => intro acc mx w; rfl
  | cons g gs ih =>
    intro acc mx w
    simp only [subCapAux, hf]
    split
    · rfl
    · split
      · split
        · rfl
        · exact ih ..
      · exact ih ..

theorem availableCapacity_features_eq {tf1 tf2 : TF}
    (hf : tf1.features = tf2.features) (g : Nat) (ll : Bool) :
    availableCapacity tf1 g ll = availableCapacity tf2 g ll := by
  unfold availableCapacity substationCapacity
  rw [hf]
  simp only [subCapAux_features_eq hf]

/-! Helper lemmas: `_update_availability`. -/

theorem updateAvailability_spec {tf tf' : TF} {gid : Nat} {ll : Bool}
    (h : updateAvailability tf gid ll = .ok tf') :
    tf'.features = tf.features ∧ tf'.cfg = tf.cfg ∧
      ∃ ac, availableCapacity tf gid ll = .ok ac ∧
        ((ac = some 0 ∧ ∃ i, gidIndex gid tf.features = some i ∧
            tf'.mask = tf.mask.set i false) ∨
          (ac ≠ some 0 ∧ tf'.mask = tf.mask)) := by
  unfold updateAvailability at h
  split at h
  · simp at h
  · rename_i ac hac
    split at h
    · rename_i hz
      split at h
      · simp at h
      · rename_i i hi
        obtain rfl := Except.ok.inj h
        exact ⟨rfl, rfl, ac, hac, .inl ⟨hz, i, hi, rfl⟩⟩
    · rename_i hz
      obtain rfl := Except.ok.inj h
      exact ⟨rfl, rfl, ac, hac, .inr ⟨hz, rfl⟩⟩

/-! Helper lemmas: `connect` inversion and the read-only paths. -/

theorem connectFeasible_noapply (tf : TF) (gid : Nat) (c : ℚ) (ll : Bool) :
    connectFeasible tf gid c false ll = .ok (true, tf) := by
  simp [connectFeasible]

theorem connect_noapply_frame {tf : TF} {gid : Nat} {c : ℚ} {ll : Bool}
    {p : Bool × TF} (h : connect tf gid c false ll = .ok p) : p.2 = tf := by
  unfold connect at h
  split at h
  · simp at h
  · split at h
    · split at h
      · simp at h
      · split at h
        · split at h
          · obtain rfl := Except.ok.inj h
            rfl
          · rw [connectFeasible_noapply] at h
            obtain rfl := Except.ok.inj h
            rfl
        · rw [connectFeasible_noapply] at h
          obtain rfl := Except.ok.inj h
          rfl
    · obtain rfl := Except.ok.inj h
      rfl

theorem cost_state_frame {tf : TF} {gid : Nat} {d m : ℚ} {cap : Option ℚ}
    {ll : Bool} {q : Option ℚ × TF} (h : cost tf gid d m cap ll = .ok q) :
    q.2 = tf := by
  unfold cost at h
  split at h
  · simp at h
  · split at h
    · obtain rfl := Except.ok.inj h
      rfl
    · split at h
      · simp at h
      · rename_i r hcon
        obtain rfl := Except.ok.inj h
        exact connect_noapply_frame hcon

theorem availableCapacity_simple {tf : TF} {gid : Nat} {f : Feature}
    (hf : lookupF gid tf.features = some f) (hns : ¬ f.ftype = "Substation") :
    availableCapacity tf gid ll = .ok f.availCap := by
  unfold availableCapacity
  rw [hf]
  simp [hns]

theorem availableCapacity_setCap_simple {tf : TF} {gid : Nat} {f : Feature}
    (hf : lookupF gid tf.features = some f) (hns : ¬ f.ftype = "Substation")
    (x : ℚ) (ll : Bool) :
    availableCapacity (setCap tf gid x) gid ll = .ok (some x) := by
  unfold availableCapacity
  rw [lookupF_setCap_self, hf]
  simp [hns]

theorem updateAvailability_ok {tf : TF} {gid : Nat} {ll : Bool} {ac : Option ℚ}
    {f : Feature} (hac : availableCapacity tf gid ll = .ok ac)
    (hf : lookupF gid tf.features = some f) :
    ∃ tf', updateAvailability tf gid ll = .ok tf' ∧
      tf'.features = tf.features ∧ tf'.cfg = tf.cfg := by
  simp only [updateAvailability, hac]
  by_cases hz : ac = some 0
  · obtain ⟨i, hi⟩ := gidIndex_of_lookupF hf
    rw [if_pos hz, hi]
    exact ⟨_, rfl, rfl, rfl⟩
  · rw [if_neg hz]
    exact ⟨tf, rfl, rfl, rfl⟩

theorem connect_eval {tf : TF} {gid : Nat} {c : ℚ} {app ll : Bool}
    {ac : Option ℚ} (hav : checkAvailability tf gid = .ok true)
    (hac : availableCapacity tf gid ll = .ok ac) :
    connect tf gid c app ll =
      (match ac with
       | some a =>
         if c > a then .ok (false, tf) else connectFeasible tf gid c app ll
       | none => connectFeasible tf gid c app ll) := by
  cases ac with
  | some a => simp [connect, hav, hac]
  | none => simp [connect, hav, hac]

theorem connectFeasible_simple {tf : TF} {gid : Nat} {f : Feature} {a c : ℚ}
    {ll : Bool} (hf : lookupF gid tf.features = some f)
    (ht : f.ftype = "TransLine" ∨ f.ftype = "LoadCen")
    (ha : f.availCap = some a) (hca : c ≤ a) :
    ∃ tf2, connectFeasible tf gid c true ll = .ok (true, tf2) ∧
      tf2.features = (setCap tf gid (a - c)).features ∧ tf2.cfg = tf.cfg := by
  have hns : ¬ f.ftype = "Substation" := by
    rcases ht with h | h <;> rw [h] <;> simp
  have htc : tfConnect tf gid c = .ok (setCap tf gid (a - c)) := by
    simp [tfConnect, hf, ha, not_lt.mpr hca]
  have hdisp : (if f.ftype = "TransLine" then tfConnect tf gid c
      else if f.ftype = "Substation" then
        connectToSubstation tf f.lines c ll
      else if f.ftype = "LoadCen" then tfConnect tf gid c
      else .ok tf) = .ok (setCap tf gid (a - c)) := by
    rcases ht with h | h <;> simp [h, htc]
  have hf1 : lookupF gid (setCap tf gid (a - c)).features =
      some { f with availCap := some (a - c) } := by
    rw [lookupF_setCap_self, hf]
    rfl
  have hac1 : availableCapacity (setCap tf gid (a - c)) gid false =
      .ok (some (a - c)) := availableCapacity_setCap_simple hf hns _ false
  obtain ⟨tf2, hupd, hfeat2, hcfg2⟩ := updateAvailability_ok hac1 hf1
  refine ⟨tf2, ?_, by rw [hfeat2], by rw [hcfg2]; rfl⟩
  simp [connectFeasible, hf, hdisp, hupd]

/-! Helper lemmas: `_substation_capacity` computes sum / 2 with a running max. -/

theorem runmax_eq (mx c : ℚ) : (if c > mx then c else mx) = max mx c := by
  by_cases h : c > mx
  · simp [h, max_eq_right h.le]
  · simp [h, max_eq_left (not_lt.mp h)]

theorem foldr_max_init_comm (xs : List ℚ) :
    ∀ b x : ℚ, xs.foldr max (max b x) = max x (xs.foldr max b) := by
  induction xs with
  | nil => intro b x; exact max_comm b x
  | cons y ys ih =>
    intro b x
    simp only [List.foldr_cons, ih]
    exact max_left_comm y x (ys.foldr max b)

theorem subCapAux_spec {tf : TF} : ∀ {ms : List Nat},
    (∀ g ∈ ms, ∃ fg, lookupF g tf.features = some fg ∧
      (fg.ftype = "TransLine" → (fg.availCap).isSome)) →
    ∀ (acc mx : ℚ) (w : Nat),
      subCapAux tf ms acc mx w =
        .ok (acc + (memberLineCaps tf ms).sum,
          (memberLineCaps tf ms).foldr max mx,
          w + (ms.filter (fun g => !(memberIsTransLine tf g))).length) := by
  intro ms
  induction ms with
  | nil => intro _ acc mx w; simp [subCapAux, memberLineCaps]
  | cons g gs ih =>
    intro hm acc mx w
    obtain ⟨fg, hlg, himp⟩ := hm g (by simp)
    have hmtail : ∀ g' ∈ gs, ∃ fg', lookupF g' tf.features = some fg' ∧
        (fg'.ftype = "TransLine" → (fg'.availCap).isSome) :=
      fun g' hg' => hm g' (by simp [hg'])
    by_cases hTL : fg.ftype = "TransLine"
    · obtain ⟨c, hc⟩ := Option.isSome_iff_exists.mp (himp hTL)
      have hcaps : memberLineCaps tf (g :: gs) = c :: memberLineCaps tf gs := by
        simp [memberLineCaps, hlg, hTL, hc]
      have hisTL : memberIsTransLine tf g = true := by
        simp [memberIsTransLine, hlg, hTL]
      simp only [subCapAux, hlg, hTL, if_true, hc, ih hmtail, hcaps,
        runmax_eq, List.foldr_cons, foldr_max_init_comm, List.sum_cons,
        List.filter_cons, hisTL]
      simp [add_assoc]
    · have hcaps : memberLineCaps tf (g :: gs) = memberLineCaps tf gs := by
        simp [memberLineCaps, hlg, hTL]
      have hisTL : memberIsTransLine tf g = false := by
        simp [memberIsTransLine, hlg, hTL]
      simp only [subCapAux, hlg, hTL, if_false, ih hmtail, hcaps,
        List.filter_cons, hisTL]
      simp [Nat.add_comm, Nat.add_assoc, Nat.add_left_comm]

theorem substationCapacity_spec (ll : Bool) {tf : TF} {ms : List Nat}
    (hm : ∀ g ∈ ms, ∃ fg, lookupF g tf.features = some fg ∧
      (fg.ftype = "TransLine" → (fg.availCap).isSome)) :
    substationCapacity tf ms ll =
      .ok ((if ll = true ∧ (memberLineCaps tf ms).foldr max 0 <
              (memberLineCaps tf ms).sum / 2 then
              (memberLineCaps tf ms).foldr max 0
            else (memberLineCaps tf ms).sum / 2),
        (ms.filter (fun g => !(memberIsTransLine tf g))).length) := by
  simp [substationCapacity, subCapAux_spec hm 0 0 0]

/-! Helper lemmas: the fill pass of the spreading loop. -/

theorem fillGo_spec (A : ℚ) : ∀ {lines : List (Nat × ℚ)} {tf : TF} (cap : ℚ),
    (lines.map Prod.fst).Nodup → linesMatch tf lines →
    ∃ tf', fillGo A tf lines cap =
        .ok (tf', lines.filter (fun p => !decide (p.2 < A)),
          cap - ((lines.filter (fun p => decide (p.2 < A))).map Prod.snd).sum) ∧
      (∀ p ∈ lines, p.2 < A → ∃ f, lookupF p.1 tf.features = some f ∧
        lookupF p.1 tf'.features = some { f with availCap := some 0 }) ∧
      (∀ p ∈ lines, ¬ p.2 < A →
        lookupF p.1 tf'.features = lookupF p.1 tf.features) ∧
      (∀ g, g ∉ lines.map Prod.fst →
        lookupF g tf'.features = lookupF g tf.features) := by
  intro lines
  induction lines with
  | nil =>
    intro tf cap _ _
    exact ⟨tf, by simp [fillGo], by simp, by simp, fun g _ => rfl⟩
  | cons p ps ih =>
    intro tf cap hnd hm
    have hnd' : (ps.map Prod.fst).Nodup := (List.nodup_cons.mp hnd).2
    have hpnot : p.1 ∉ ps.map Prod.fst := (List.nodup_cons.mp hnd).1
    obtain ⟨f, hlf, hcf⟩ := hm p (by simp)
    by_cases hlt : p.2 < A
    · -- the head line is filled to its maximum
      have htc : tfConnect tf p.1 p.2 = .ok (setCap tf p.1 0) := by
        simp [tfConnect, hlf, hcf, sub_self]
      have hm' : linesMatch (setCap tf p.1 0) ps := by
        intro q hq
        obtain ⟨fq, hlq, hcq⟩ := hm q (by simp [hq])
        have hne : q.1 ≠ p.1 := by
          intro hc
          exact hpnot (hc ▸ List.mem_map_of_mem Prod.fst hq)
        exact ⟨fq, by rw [lookupF_setCap_ne _ _ _ _ hne]; exact hlq, hcq⟩
      obtain ⟨tf', hrun, hrem, hkept, hout⟩ := ih (cap - p.2) hnd' hm'
      refine ⟨tf', ?_, ?_, ?_, ?_⟩
      · simp only [fillGo, if_pos hlt, htc, hrun, List.filter_cons,
          decide_eq_true_eq, hlt, if_pos, Bool.not_eq_true',
          decide_eq_false_iff_not, not_true_eq_false, List.map_cons,
          List.sum_cons]
        simp [hlt, sub_sub]
      · intro q hq hqlt
        rcases List.mem_cons.mp hq with rfl | hq'
        · refine ⟨f, hlf, ?_⟩
          rw [hout q.1 hpnot, lookupF_setCap_self, hlf]
          rfl
        · obtain ⟨fq, hlq, hlq'⟩ := hrem q hq' hqlt
          refine ⟨fq, ?_, hlq'⟩
          have hne : q.1 ≠ p.1 := by
            intro hc
            exact hpnot (hc ▸ List.mem_map_of_mem Prod.fst hq')
          rw [lookupF_setCap_ne _ _ _ _ hne] at hlq
          exact hlq
      · intro q hq hqlt
        rcases List.mem_cons.mp hq with rfl | hq'
        · exact absurd hlt hqlt
        · have hne : q.1 ≠ p.1 := by
            intro hc
            exact hpnot (hc ▸ List.mem_map_of_mem Prod.fst hq')
          rw [hkept q hq' hqlt, lookupF_setCap_ne _ _ _ _ hne]
      · intro g hg
        have hg1 : g ≠ p.1 := by
          intro hc
          exact hg (by simp [hc])
        have hg2 : g ∉ ps.map Prod.fst := by
          intro hc
          exact hg (by simp [hc])
        rw [hout g hg2, lookupF_setCap_ne _ _ _ _ hg1]
    · -- the head line can bear the equal share and is kept
      have hm'' : linesMatch tf ps := fun q hq => hm q (by simp [hq])
      obtain ⟨tf', hrun, hrem, hkept, hout⟩ := ih cap hnd' hm''
      refine ⟨tf', ?_, ?_, ?_, ?_⟩
      · simp [fillGo, if_neg hlt, hrun, List.filter_cons, hlt]
      · intro q hq hqlt
        rcases List.mem_cons.mp hq with rfl | hq'
        · exact absurd hqlt hlt
        · exact hrem q hq' hqlt
      · intro q hq hqlt
        rcases List.mem_cons.mp hq with rfl | hq'
        · exact hout q.1 hpnot
        · exact hkept q hq' hqlt
      · intro g hg
        have hg2 : g ∉ ps.map Prod.fst := by
          intro hc
          exact hg (by simp [hc])
        exact hout g hg2

/-! Helper lemmas: the final equal-share pass. -/

theorem connectEach_spec {amt : ℚ} : ∀ {lines : List (Nat × ℚ)} {tf : TF},
    (lines.map Prod.fst).Nodup → linesMatch tf lines →
    (∀ p ∈ lines, amt ≤ p.2) →
    ∃ tf', connectEach tf lines amt = .ok tf' ∧
      (∀ p ∈ lines, ∃ f, lookupF p.1 tf.features = some f ∧
        lookupF p.1 tf'.features =
          some { f with availCap := some (p.2 - amt) }) ∧
      (∀ g, g ∉ lines.map Prod.fst →
        lookupF g tf'.features = lookupF g tf.features) := by
  intro lines
  induction lines with
  | nil =>
    intro tf _ _ _
    exact ⟨tf, rfl, by simp, fun g _ => rfl⟩
  | cons p ps ih =>
    intro tf hnd hm hle
    have hnd' : (ps.map Prod.fst).Nodup := (List.nodup_cons.mp hnd).2
    have hpnot : p.1 ∉ ps.map Prod.fst := (List.nodup_cons.mp hnd).1
    obtain ⟨f, hlf, hcf⟩ := hm p (by simp)
    have hamt : amt ≤ p.2 := hle p (by simp)
    have htc : tfConnect tf p.1 amt = .ok (setCap tf p.1 (p.2 - amt)) := by
      simp [tfConnect, hlf, hcf, not_lt.mpr hamt]
    have hm' : linesMatch (setCap tf p.1 (p.2 - amt)) ps := by
      intro q hq
      obtain ⟨fq, hlq, hcq⟩ := hm q (by simp [hq])
      have hne : q.1 ≠ p.1 := by
        intro hc
        exact hpnot (hc ▸ List.mem_map_of_mem Prod.fst hq)
      exact ⟨fq, by rw [lookupF_setCap_ne _ _ _ _ hne]; exact hlq, hcq⟩
    obtain ⟨tf', hrun, hval, hout⟩ :=
      ih hnd' hm' (fun q hq => hle q (by simp [hq]))
    refine ⟨tf', by simp [connectEach, htc, hrun], ?_, ?_⟩
    · intro q hq
      rcases List.mem_cons.mp hq with rfl | hq'
      · refine ⟨f, hlf, ?_⟩
        rw [hout q.1 hpnot, lookupF_setCap_self, hlf]
        rfl
      · obtain ⟨fq, hlq, hlq'⟩ := hval q hq'
        refine ⟨fq, ?_, hlq'⟩
        have hne : q.1 ≠ p.1 := by
          intro hc
          exact hpnot (hc ▸ List.mem_map_of_mem Prod.fst hq')
        rw [lookupF_setCap_ne _ _ _ _ hne] at hlq
        exact hlq
    · intro g hg
      have hg1 : g ≠ p.1 := by
        intro hc
        exact hg (by simp [hc])
      have hg2 : g ∉ ps.map Prod.fst := by
        intro hc
        exact hg (by simp [hc])
      rw [hout g hg2, lookupF_setCap_ne _ _ _ _ hg1]

theorem connectEach_sound {amt : ℚ} : ∀ {lines : List (Nat × ℚ)} {tf tf' : TF},
    (lines.map Prod.fst).Nodup → linesMatch tf lines →
    connectEach tf lines amt = .ok tf' →
    (∀ p ∈ lines, amt ≤ p.2 ∧ ∃ f, lookupF p.1 tf.features = some f ∧
      lookupF p.1 tf'.features = some { f with availCap := some (p.2 - amt) }) ∧
    (∀ g, g ∉ lines.map Prod.fst →
      lookupF g tf'.features = lookupF g tf.features) := by
  intro lines
  induction lines with
  | nil =>
    intro tf tf' _ _ h
    obtain rfl := Except.ok.inj h
    exact ⟨by simp, fun g _ => rfl⟩
  | cons p ps ih =>
    intro tf tf' hnd hm h
    have hnd' : (ps.map Prod.fst).Nodup := (List.nodup_cons.mp hnd).2
    have hpnot : p.1 ∉ ps.map Prod.fst := (List.nodup_cons.mp hnd).1
    obtain ⟨f, hlf, hcf⟩ := hm p (by simp)
    simp only [connectEach] at h
    split at h
    · simp at h
    · rename_i tf1 htc
      simp only [tfConnect, hlf, hcf] at htc
      split at htc
      · simp at htc
      · rename_i hlt
        have hamt : amt ≤ p.2 := not_lt.mp hlt
        obtain rfl := (Except.ok.inj htc).symm
        have hm' : linesMatch (setCap tf p.1 (p.2 - amt)) ps := by
          intro q hq
          obtain ⟨fq, hlq, hcq⟩ := hm q (by simp [hq])
          have hne : q.1 ≠ p.1 := by
            intro hc
            exact hpnot (hc ▸ List.mem_map_of_mem Prod.fst hq)
          exact ⟨fq, by rw [lookupF_setCap_ne _ _ _ _ hne]; exact hlq, hcq⟩
        obtain ⟨hval, hout⟩ := ih hnd' hm' h
        constructor
        · intro q hq
          rcases List.mem_cons.mp hq with rfl | hq'
          · refine ⟨hamt, f, hlf, ?_⟩
            rw [hout q.1 hpnot, lookupF_setCap_self, hlf]
            rfl
          · obtain ⟨hq2, fq, hlq, hlq'⟩ := hval q hq'
            refine ⟨hq2, fq, ?_, hlq'⟩
            have hne : q.1 ≠ p.1 := by
              intro hc
              exact hpnot (hc ▸ List.mem_map_of_mem Prod.fst hq')
            rw [lookupF_setCap_ne _ _ _ _ hne] at hlq
            exact hlq
        · intro g hg
          have hg1 : g ≠ p.1 := by
            intro hc
            exact hg (by simp [hc])
          have hg2 : g ∉ ps.map Prod.fst := by
            intro hc
            exact hg (by simp [hc])
          rw [hout g hg2, lookupF_setCap_ne _ _ _ _ hg1]

/-! Helper lemmas: list arithmetic for the spreading invariants. -/

theorem sum_map_filter_split {α : Type} (l : List α) (f : α → ℚ) (q : α → Bool) :
    ((l.filter q).map f).sum + ((l.filter (fun x => !q x)).map f).sum =
      (l.map f).sum := by
  induction l with
  | nil => simp
  | cons x xs ih =>
    by_cases hx : q x <;>
      simp [List.filter_cons, hx, List.sum_cons, ← ih] <;> ring

theorem sum_le_length_mul {l : List ℚ} {A : ℚ} (h : ∀ x ∈ l, x < A) :
    l.sum ≤ (l.length : ℚ) * A := by
  induction l with
  | nil => simp
  | cons x xs ih =>
    have hx : x ≤ A := (h x (by simp)).le
    have hxs : xs.sum ≤ (xs.length : ℚ) * A := ih (fun y hy => h y (by simp [hy]))
    simp only [List.sum_cons, List.length_cons]
    push_cast
    nlinarith

theorem sum_lt_length_mul {l : List ℚ} {A : ℚ} (hne : l ≠ [])
    (h : ∀ x ∈ l, x < A) : l.sum < (l.length : ℚ) * A := by
  cases l with
  | nil => exact absurd rfl hne
  | cons x xs =>
    have hx : x < A := h x (by simp)
    have hxs : xs.sum ≤ (xs.length : ℚ) * A :=
      sum_le_length_mul (fun y hy => h y (by simp [hy]))
    simp only [List.sum_cons, List.length_cons]
    push_cast
    nlinarith

theorem sum_map_const {α : Type} (l : List α) (c : ℚ) :
    (l.map (fun _ => c)).sum = (l.length : ℚ) * c := by
  induction l with
  | nil => simp
  | cons x xs ih =>
    simp only [List.map_cons, List.sum_cons, List.length_cons, ih]
    push_cast
    ring

theorem key_inj {l : List (Nat × ℚ)} (hnd : (l.map Prod.fst).Nodup) :
    ∀ {p q : Nat × ℚ}, p ∈ l → q ∈ l → p.1 = q.1 → p = q := by
  induction l with
  | nil => intro p q hp _ _; simp at hp
  | cons r rs ih =>
    intro p q hp hq hpq
    have hnd' : (rs.map Prod.fst).Nodup := (List.nodup_cons.mp hnd).2
    have hrnot : r.1 ∉ rs.map Prod.fst := (List.nodup_cons.mp hnd).1
    rcases List.mem_cons.mp hp with rfl | hp' <;>
      rcases List.mem_cons.mp hq with rfl | hq'
    · rfl
    · exact absurd (hpq ▸ List.mem_map_of_mem Prod.fst hq') hrnot
    · exact absurd (hpq ▸ List.mem_map_of_mem Prod.fst hp') hrnot
    · exact ih hnd' hp' hq' hpq

theorem capOf_eq {tf : TF} {g : Nat} {f : Feature} {c : ℚ}
    (hl : lookupF g tf.features = some f) (hc : f.availCap = some c) :
    capOf tf g = c := by
  simp [capOf, hl, hc]

theorem fillLines_ne_nil {tf : TF} {lines : List (Nat × ℚ)} {cap : ℚ}
    (hne : lines ≠ []) :
    fillLines tf lines cap = fillGo (cap / lines.length) tf lines cap := by
  cases lines with
  | nil => exact absurd rfl hne
  | cons p ps => rfl

/-! The two main lemmas about `_spread_substation_load`. -/

theorem spreadGo_sound : ∀ (fuel : Nat) {lines : List (Nat × ℚ)}
    {tf tf' : TF} {cap : ℚ} {k : Nat},
    (lines.map Prod.fst).Nodup → linesMatch tf lines →
    (∀ p ∈ lines, 0 ≤ p.2) → 0 ≤ cap →
    spreadGo tf lines cap fuel = .ok (tf', k) →
    (∀ p ∈ lines, ∃ f c', lookupF p.1 tf.features = some f ∧
      lookupF p.1 tf'.features = some { f with availCap := some c' } ∧
      0 ≤ c' ∧ c' ≤ p.2) ∧
    (lines.map (fun p => p.2 - capOf tf' p.1)).sum = cap ∧
    (∀ g, g ∉ lines.map Prod.fst →
      lookupF g tf'.features = lookupF g tf.features) := by
  intro fuel
  induction fuel with
  | zero =>
    intro lines tf tf' cap k _ _ _ _ h
    simp [spreadGo] at h
  | succ fuel ih =>
    intro lines tf tf' cap k hnd hm hpos hc0 h
    have hne : lines ≠ [] := by
      intro hl
      subst hl
      simp [spreadGo, fillLines] at h
    have hlen0 : (0:ℚ) < (lines.length : ℚ) := by
      cases lines with
      | nil => exact absurd rfl hne
      | cons a as => exact_mod_cast Nat.succ_pos as.length
    obtain ⟨tf1, hrun, hrem, hkept, hout⟩ :=
      fillGo_spec (cap / lines.length) cap hnd hm
    simp only [spreadGo, fillLines_ne_nil hne, hrun] at h
    have hA0 : 0 ≤ cap / lines.length := div_nonneg hc0 hlen0.le
    have hmulA : (lines.length : ℚ) * (cap / lines.length) = cap := by
      field_simp
    have hKsub : ∀ q ∈ lines.filter
        (fun p => !decide (p.2 < cap / lines.length)), q ∈ lines ∧
        ¬ q.2 < cap / lines.length := by
      intro q hq
      have := List.mem_filter.mp hq
      exact ⟨this.1, by simpa using this.2⟩
    have hRsub : ∀ q ∈ lines.filter
        (fun p => decide (p.2 < cap / lines.length)), q ∈ lines ∧
        q.2 < cap / lines.length := by
      intro q hq
      have := List.mem_filter.mp hq
      exact ⟨this.1, by simpa using this.2⟩
    have hRsum_le : (((lines.filter
        (fun p => decide (p.2 < cap / lines.length))).map Prod.snd)).sum ≤ cap := by
      have h1 : ∀ x ∈ (lines.filter
          (fun p => decide (p.2 < cap / lines.length))).map Prod.snd,
          x < cap / lines.length := by
        intro x hx
        obtain ⟨q, hq, rfl⟩ := List.mem_map.mp hx
        exact (hRsub q hq).2
      have h2 := sum_le_length_mul h1
      have h3 : (((lines.filter
          (fun p => decide (p.2 < cap / lines.length))).map Prod.snd).length : ℚ) ≤
          (lines.length : ℚ) := by
        have := List.length_filter_le
          (fun p : Nat × ℚ => decide (p.2 < cap / lines.length)) lines
        rw [List.length_map]
        exact_mod_cast this
      calc (((lines.filter (fun p => decide (p.2 < cap / lines.length))).map
            Prod.snd)).sum
          ≤ _ * (cap / lines.length) := h2
        _ ≤ (lines.length : ℚ) * (cap / lines.length) :=
            mul_le_mul_of_nonneg_right h3 hA0
        _ = cap := hmulA
    have hc10 : 0 ≤ cap - (((lines.filter
        (fun p => decide (p.2 < cap / lines.length))).map Prod.snd)).sum := by
      linarith
    have hm1 : linesMatch tf1 (lines.filter
        (fun p => !decide (p.2 < cap / lines.length))) := by
      intro q hq
      obtain ⟨hql, hqn⟩ := hKsub q hq
      obtain ⟨fq, hlq, hcq⟩ := hm q hql
      exact ⟨fq, by rw [hkept q hql hqn]; exact hlq, hcq⟩
    have hndK : ((lines.filter
        (fun p => !decide (p.2 < cap / lines.length))).map Prod.fst).Nodup :=
      hnd.sublist ((List.filter_sublist lines).map Prod.fst)
    have hKfst : ∀ g, g ∉ lines.map Prod.fst →
        g ∉ (lines.filter
          (fun p => !decide (p.2 < cap / lines.length))).map Prod.fst := by
      intro g hg hc
      exact hg (((List.filter_sublist lines).map Prod.fst).subset hc)
    have hdisR : ∀ p ∈ lines.filter
        (fun p => decide (p.2 < cap / lines.length)),
        p.1 ∉ (lines.filter
          (fun p => !decide (p.2 < cap / lines.length))).map Prod.fst := by
      intro p hp hmem
      obtain ⟨q, hqK, hq1⟩ := List.mem_map.mp hmem
      have hpq : p = q := key_inj hnd (hRsub p hp).1 (hKsub q hqK).1 hq1.symm
      exact (hKsub q hqK).2 (hpq ▸ (hRsub p hp).2)
    split at h
    · -- at least one line was filled: the loop repeats on the survivors
      rename_i hlt_len
      split at h
      · simp at h
      · rename_i tf2 k2 hrec
        obtain ⟨h1, h2⟩ := Prod.mk.injEq .. ▸ Except.ok.inj h
        subst h1
        obtain ⟨ihval, ihsum, ihout⟩ := ih hndK hm1
          (fun q hq => hpos q (hKsub q hq).1) hc10 hrec
        refine ⟨?_, ?_, ?_⟩
        · intro p hp
          by_cases hplt : p.2 < cap / lines.length
          · have hpR : p ∈ lines.filter
                (fun p => decide (p.2 < cap / lines.length)) :=
              List.mem_filter.mpr ⟨hp, by simpa using hplt⟩
            obtain ⟨f, hlf, hlf1⟩ := hrem p hp hplt
            refine ⟨f, 0, hlf, ?_, le_refl 0, hpos p hp⟩
            rw [ihout p.1 (hdisR p hpR), hlf1]
          · have hpK : p ∈ lines.filter
                (fun p => !decide (p.2 < cap / lines.length)) :=
              List.mem_filter.mpr ⟨hp, by simpa using hplt⟩
            obtain ⟨f, c', hlf1, hlf', hb1, hb2⟩ := ihval p hpK
            rw [hkept p hp hplt] at hlf1
            exact ⟨f, c', hlf1, hlf', hb1, hb2⟩
        · have hsplit := sum_map_filter_split lines
            (fun p => p.2 - capOf tf2 p.1)
            (fun p => decide (p.2 < cap / lines.length))
          rw [← hsplit]
          have hRpart : ((lines.filter
              (fun p => decide (p.2 < cap / lines.length))).map
                (fun p => p.2 - capOf tf2 p.1)).sum =
              ((lines.filter
                (fun p => decide (p.2 < cap / lines.length))).map
                  Prod.snd).sum := by
            apply congrArg List.sum
            apply List.map_congr_left
            intro p hp
            obtain ⟨f, hlf, hlf1⟩ := hrem p (hRsub p hp).1 (hRsub p hp).2
            have hl' : lookupF p.1 tf2.features =
                some { f with availCap := some 0 } := by
              rw [ihout p.1 (hdisR p hp)]
              exact hlf1
            rw [capOf_eq hl' rfl, sub_zero]
          rw [hRpart, ihsum]
          ring
        · intro g hg
          rw [ihout g (hKfst g hg), hout g hg]
    · -- no line was filled: the equal share is applied to every line
      rename_i hlt_len
      have hKlen : (lines.filter
          (fun p => !decide (p.2 < cap / lines.length))).length =
          lines.length := le_antisymm (List.length_filter_le _ _)
        (not_lt.mp hlt_len)
      have hKeq : lines.filter
          (fun p => !decide (p.2 < cap / lines.length)) = lines :=
        (List.filter_sublist lines).eq_of_length hKlen
      have hall : ∀ p ∈ lines, ¬ p.2 < cap / lines.length := by
        intro p hp
        have hpK : p ∈ lines.filter
            (fun p => !decide (p.2 < cap / lines.length)) := by
          rw [hKeq]
          exact hp
        simpa using (List.mem_filter.mp hpK).2
      have hRnil : lines.filter
          (fun p => decide (p.2 < cap / lines.length)) = [] :=
        List.filter_eq_nil_iff.mpr (fun p hp => by simpa using hall p hp)
      split at h
      · simp at h
      · rename_i tf2 hce
        obtain ⟨h1, h2⟩ := Prod.mk.injEq .. ▸ Except.ok.inj h
        subst h1
        rw [hRnil] at hce
        simp only [List.map_nil, List.sum_nil, sub_zero] at hce
        rw [hKeq] at hce hm1
        obtain ⟨hval, hout1⟩ := connectEach_sound hnd hm1 hce
        refine ⟨?_, ?_, ?_⟩
        · intro p hp
          obtain ⟨hle, f, hlf1, hlf'⟩ := hval p hp
          rw [hkept p hp (hall p hp)] at hlf1
          exact ⟨f, p.2 - cap / lines.length, hlf1, hlf',
            by linarith, by linarith⟩
        · have hconst : (lines.map (fun p => p.2 - capOf tf2 p.1)).sum =
              (lines.map (fun _ => cap / lines.length)).sum := by
            apply congrArg List.sum
            apply List.map_congr_left
            intro p hp
            obtain ⟨hle, f, hlf1, hlf'⟩ := hval p hp
            rw [capOf_eq hlf' rfl]
            ring
          rw [hconst, sum_map_const, hmulA]
        · intro g hg
          rw [hout1 g hg, hout g hg]

theorem spreadGo_ok : ∀ (fuel : Nat) {lines : List (Nat × ℚ)} {tf : TF}
    {cap : ℚ},
    lines.length + 1 ≤ fuel →
    (lines.map Prod.fst).Nodup → linesMatch tf lines →
    (∀ p ∈ lines, 0 < p.2) → 0 ≤ cap → cap ≤ (lines.map Prod.snd).sum →
    lines ≠ [] →
    ∃ tf' k, spreadGo tf lines cap fuel = .ok (tf', k) ∧ k ≤ lines.length := by
  intro fuel
  induction fuel with
  | zero =>
    intro lines tf cap hfuel _ _ _ _ _ _
    exact absurd hfuel (Nat.not_succ_le_zero _)
  | succ fuel ih =>
    intro lines tf cap hfuel hnd hm hpos hc0 hcS hne
    have hlen0 : (0:ℚ) < (lines.length : ℚ) := by
      cases lines with
      | nil => exact absurd rfl hne
      | cons a as => exact_mod_cast Nat.succ_pos as.length
    obtain ⟨tf1, hrun, hrem, hkept, hout⟩ :=
      fillGo_spec (cap / lines.length) cap hnd hm
    have hA0 : 0 ≤ cap / lines.length := div_nonneg hc0 hlen0.le
    have hmulA : (lines.length : ℚ) * (cap / lines.length) = cap := by
      field_simp
    have hKsub : ∀ q ∈ lines.filter
        (fun p => !decide (p.2 < cap / lines.length)), q ∈ lines ∧
        ¬ q.2 < cap / lines.length := by
      intro q hq
      have := List.mem_filter.mp hq
      exact ⟨this.1, by simpa using this.2⟩
    have hRsub : ∀ q ∈ lines.filter
        (fun p => decide (p.2 < cap / lines.length)), q ∈ lines ∧
        q.2 < cap / lines.length := by
      intro q hq
      have := List.mem_filter.mp hq
      exact ⟨this.1, by simpa using this.2⟩
    have hRsum_le : (((lines.filter
        (fun p => decide (p.2 < cap / lines.length))).map Prod.snd)).sum ≤ cap := by
      have h1 : ∀ x ∈ (lines.filter
          (fun p => decide (p.2 < cap / lines.length))).map Prod.snd,
          x < cap / lines.length := by
        intro x hx
        obtain ⟨q, hq, rfl⟩ := List.mem_map.mp hx
        exact (hRsub q hq).2
      have h2 := sum_le_length_mul h1
      have h3 : (((lines.filter
          (fun p => decide (p.2 < cap / lines.length))).map Prod.snd).length : ℚ) ≤
          (lines.length : ℚ) := by
        have := List.length_filter_le
          (fun p : Nat × ℚ => decide (p.2 < cap / lines.length)) lines
        rw [List.length_map]
        exact_mod_cast this
      calc (((lines.filter (fun p => decide (p.2 < cap / lines.length))).map
            Prod.snd)).sum
          ≤ _ * (cap / lines.length) := h2
        _ ≤ (lines.length : ℚ) * (cap / lines.length) :=
            mul_le_mul_of_nonneg_right h3 hA0
        _ = cap := hmulA
    have hc10 : 0 ≤ cap - (((lines.filter
        (fun p => decide (p.2 < cap / lines.length))).map Prod.snd)).sum := by
      linarith
    have hm1 : linesMatch tf1 (lines.filter
        (fun p => !decide (p.2 < cap / lines.length))) := by
      intro q hq
      obtain ⟨hql, hqn⟩ := hKsub q hq
      obtain ⟨fq, hlq, hcq⟩ := hm q hql
      exact ⟨fq, by rw [hkept q hql hqn]; exact hlq, hcq⟩
    have hndK : ((lines.filter
        (fun p => !decide (p.2 < cap / lines.length))).map Prod.fst).Nodup :=
      hnd.sublist ((List.filter_sublist lines).map Prod.fst)
    have hsumsplit := sum_map_filter_split lines Prod.snd
      (fun p => decide (p.2 < cap / lines.length))
    have hcS1 : cap - (((lines.filter
        (fun p => decide (p.2 < cap / lines.length))).map Prod.snd)).sum ≤
        ((lines.filter
          (fun p => !decide (p.2 < cap / lines.length))).map Prod.snd).sum := by
      linarith
    by_cases hcond : (lines.filter
        (fun p => !decide (p.2 < cap / lines.length))).length < lines.length
    · -- the loop repeats on the surviving lines
      have hKne : lines.filter
          (fun p => !decide (p.2 < cap / lines.length)) ≠ [] := by
        intro hKnil
        have hallR : ∀ p ∈ lines, p.2 < cap / lines.length := by
          intro p hp
          have := List.filter_eq_nil_iff.mp hKnil p hp
          simpa using this
        have hmapne : lines.map Prod.snd ≠ [] := by
          cases lines with
          | nil => exact absurd rfl hne
          | cons a as => simp
        have hslt : (lines.map Prod.snd).sum <
            ((lines.map Prod.snd).length : ℚ) * (cap / lines.length) := by
          apply sum_lt_length_mul hmapne
          intro x hx
          obtain ⟨q, hq, rfl⟩ := List.mem_map.mp hx
          exact hallR q hq
        rw [List.length_map, hmulA] at hslt
        linarith
      have hfuelK : (lines.filter
          (fun p => !decide (p.2 < cap / lines.length))).length + 1 ≤ fuel := by
        omega
      obtain ⟨tf2, k2, hrec, hk2⟩ := ih hfuelK hndK hm1
        (fun q hq => hpos q (hKsub q hq).1) hc10 hcS1 hKne
      refine ⟨tf2, k2 + 1, ?_, by omega⟩
      simp only [spreadGo, fillLines_ne_nil hne, hrun, if_pos hcond, hrec]
    · -- the set is stable: one terminal iteration
      have hKlen : (lines.filter
          (fun p => !decide (p.2 < cap / lines.length))).length =
          lines.length := le_antisymm (List.length_filter_le _ _)
        (not_lt.mp hcond)
      have hKeq : lines.filter
          (fun p => !decide (p.2 < cap / lines.length)) = lines :=
        (List.filter_sublist lines).eq_of_length hKlen
      have hall : ∀ p ∈ lines, ¬ p.2 < cap / lines.length := by
        intro p hp
        have hpK : p ∈ lines.filter
            (fun p => !decide (p.2 < cap / lines.length)) := by
          rw [hKeq]
          exact hp
        simpa using (List.mem_filter.mp hpK).2
      have hRnil : lines.filter
          (fun p => decide (p.2 < cap / lines.length)) = [] :=
        List.filter_eq_nil_iff.mpr (fun p hp => by simpa using hall p hp)
      have hle : ∀ p ∈ lines, cap / lines.length ≤ p.2 :=
        fun p hp => not_lt.mp (hall p hp)
      rw [hKeq] at hm1
      obtain ⟨tf2, hce, -, -⟩ := connectEach_spec hnd hm1 hle
      refine ⟨tf2, 1, ?_, ?_⟩
      · simp only [spreadGo, fillLines_ne_nil hne, hrun, if_neg hcond, hRnil]
        simp only [List.map_nil, List.sum_nil, sub_zero]
        rw [hKeq, hce]
      · have : 0 < lines.length := List.length_pos.mpr hne
        omega

/-! Helper lemmas: from substation members to the spreading work list. -/

theorem getLineCaps_eq {tf : TF} : ∀ {ms : List Nat},
    (∀ g ∈ ms, ∃ fg, lookupF g tf.features = some fg ∧
      ∃ c, fg.availCap = some c) →
    getLineCaps tf ms = .ok (ms.map (capOf tf)) := by
  intro ms
  induction ms with
  | nil => intro _; rfl
  | cons g gs ih =>
    intro hm
    obtain ⟨fg, hlg, c, hc⟩ := hm g (by simp)
    have := ih (fun g' hg' => hm g' (by simp [hg']))
    simp [getLineCaps, hlg, hc, this, capOf_eq hlg hc]

theorem zip_map_self : ∀ (ms : List Nat) (f : Nat → ℚ),
    ms.zip (ms.map f) = ms.map (fun g => (g, f g)) := by
  intro ms f
  induction ms with
  | nil => rfl
  | cons g gs ih => simp [List.zip_cons_cons, ih]

theorem filter_map_pair : ∀ (ms : List Nat) (f : Nat → ℚ),
    (ms.map (fun g => (g, f g))).filter (fun p => decide (p.2 ≠ 0)) =
      (ms.filter (fun g => decide (f g ≠ 0))).map (fun g => (g, f g)) := by
  intro ms f
  induction ms with
  | nil => rfl
  | cons g gs ih =>
    by_cases hz : f g ≠ 0
    · simpa [List.filter_cons, hz] using ih
    · simpa [List.filter_cons, hz] using ih

theorem nonzeroLines_eq (tf : TF) (ms : List Nat) :
    nonzeroLines tf ms =
      (ms.filter (fun g => decide (capOf tf g ≠ 0))).map
        (fun g => (g, capOf tf g)) := by
  unfold nonzeroLines
  exact filter_map_pair ms (capOf tf)

theorem nonzeroLines_fst (tf : TF) (ms : List Nat) :
    (nonzeroLines tf ms).map Prod.fst =
      ms.filter (fun g => decide (capOf tf g ≠ 0)) := by
  rw [nonzeroLines_eq, List.map_map]
  exact List.map_id _

theorem nonzeroLines_nodup {tf : TF} {ms : List Nat} (hnd : ms.Nodup) :
    ((nonzeroLines tf ms).map Prod.fst).Nodup := by
  rw [nonzeroLines_fst]
  exact hnd.filter _

theorem nonzeroLines_match {tf : TF} {ms : List Nat}
    (hm : membersAreLines tf ms) : linesMatch tf (nonzeroLines tf ms) := by
  intro p hp
  rw [nonzeroLines_eq] at hp
  obtain ⟨g, hg, rfl⟩ := List.mem_map.mp hp
  obtain ⟨fg, hlg, -, c, hc, -⟩ := hm g (List.mem_of_mem_filter hg)
  exact ⟨fg, hlg, by rw [hc, capOf_eq hlg hc]⟩

theorem nonzeroLines_pos {tf : TF} {ms : List Nat}
    (hm : membersAreLines tf ms) : ∀ p ∈ nonzeroLines tf ms, 0 < p.2 := by
  intro p hp
  rw [nonzeroLines_eq] at hp
  obtain ⟨g, hg, rfl⟩ := List.mem_map.mp hp
  obtain ⟨fg, hlg, -, c, hc, hc0⟩ := hm g (List.mem_of_mem_filter hg)
  have hnz : capOf tf g ≠ 0 := by simpa using (List.mem_filter.mp hg).2
  rw [capOf_eq hlg hc] at hnz ⊢
  exact lt_of_le_of_ne hc0 (Ne.symm hnz)

theorem nonzeroLines_sum (tf : TF) (ms : List Nat) :
    ((nonzeroLines tf ms).map Prod.snd).sum = (ms.map (capOf tf)).sum := by
  rw [nonzeroLines_eq, List.map_map]
  have hzero : ((ms.filter (fun g => !decide (capOf tf g ≠ 0))).map
      (Prod.snd ∘ fun g => (g, capOf tf g))).sum = 0 := by
    apply List.sum_eq_zero
    intro x hx
    obtain ⟨g, hg, rfl⟩ := List.mem_map.mp hx
    have := (List.mem_filter.mp hg).2
    simpa using this
  have hsplit := sum_map_filter_split ms
    (Prod.snd ∘ fun g => (g, capOf tf g)) (fun g => decide (capOf tf g ≠ 0))
  have : (ms.map (Prod.snd ∘ fun g => (g, capOf tf g))).sum =
      (ms.map (capOf tf)).sum := by
    apply congrArg List.sum
    apply List.map_congr_left
    intro g _
    rfl
  rw [← this, ← hsplit, hzero, add_zero]

theorem membersAreLines_resolve {tf : TF} {ms : List Nat}
    (hm : membersAreLines tf ms) :
    ∀ g ∈ ms, ∃ fg, lookupF g tf.features = some fg ∧
      ∃ c, fg.availCap = some c := by
  intro g hg
  obtain ⟨fg, hlg, -, c, hc, -⟩ := hm g hg
  exact ⟨fg, hlg, c, hc⟩

theorem membersAreLines_isSome {tf : TF} {ms : List Nat}
    (hm : membersAreLines tf ms) :
    ∀ g ∈ ms, ∃ fg, lookupF g tf.features = some fg ∧
      (fg.ftype = "TransLine" → (fg.availCap).isSome) := by
  intro g hg
  obtain ⟨fg, hlg, -, c, hc, -⟩ := hm g hg
  exact ⟨fg, hlg, fun _ => by simp [hc]⟩

theorem memberLineCaps_lines {tf : TF} : ∀ {ms : List Nat},
    membersAreLines tf ms → memberLineCaps tf ms = ms.map (capOf tf) := by
  intro ms
  induction ms with
  | nil => intro _; rfl
  | cons g gs ih =>
    intro hm
    obtain ⟨fg, hlg, hTL, c, hc, -⟩ := hm g (by simp)
    have htail := ih (fun g' hg' => hm g' (by simp [hg']))
    have hstep : memberLineCaps tf (g :: gs) = c :: memberLineCaps tf gs := by
      simp [memberLineCaps, List.filterMap_cons, hlg, hTL, hc]
    rw [hstep, htail, List.map_cons, capOf_eq hlg hc]

theorem substationCapacity_lines {tf : TF} {ms : List Nat}
    (hm : membersAreLines tf ms) :
    substationCapacity tf ms false = .ok ((ms.map (capOf tf)).sum / 2, 0) := by
  have h1 := substationCapacity_spec false (membersAreLines_isSome hm)
  have h3 : ms.filter (fun g => !(memberIsTransLine tf g)) = [] := by
    apply List.filter_eq_nil_iff.mpr
    intro g hg
    obtain ⟨fg, hlg, hTL, -⟩ := hm g hg
    simp [memberIsTransLine, hlg, hTL]
  rw [h3, memberLineCaps_lines hm] at h1
  simpa using h1

theorem connectToSubstation_run {tf : TF} {ms : List Nat} {cap : ℚ}
    (hm : ∀ g ∈ ms, ∃ fg, lookupF g tf.features = some fg ∧
      ∃ c, fg.availCap = some c) :
    connectToSubstation tf ms cap false =
      (match spreadLoad tf (nonzeroLines tf ms) cap with
       | .error e => .error e
       | .ok (tf1, _) => .ok tf1) := by
  unfold connectToSubstation
  rw [getLineCaps_eq hm]
  simp only [Bool.false_eq_true, if_false, zip_map_self]
  rfl

/-! Helper lemmas: `connect` on a substation gid. -/

theorem connectFeasible_substation {tf : TF} {gid : Nat} {f : Feature}
    {cap : ℚ} {ll : Bool} (hf : lookupF gid tf.features = some f)
    (hsub : f.ftype = "Substation") :
    connectFeasible tf gid cap true ll =
      (match connectToSubstation tf f.lines cap ll with
       | .error e => .error e
       | .ok tf1 =>
         match updateAvailability tf1 gid false with
         | .error e => .error e
         | .ok tf2 => .ok (true, tf2)) := by
  simp [connectFeasible, hf, hsub]

theorem connect_substation_inv {tf tf' : TF} {gid : Nat} {f : Feature}
    {cap : ℚ} (hf : lookupF gid tf.features = some f)
    (hsub : f.ftype = "Substation")
    (hok : connect tf gid cap true false = .ok (true, tf')) :
    ∃ tf1, connectToSubstation tf f.lines cap false = .ok tf1 ∧
      updateAvailability tf1 gid false = .ok tf' := by
  unfold connect at hok
  split at hok
  · simp at hok
  · split at hok
    · split at hok
      · simp at hok
      · have hcf : connectFeasible tf gid cap true false = .ok (true, tf') := by
          split at hok
          · split at hok
            · simp at hok
            · exact hok
          · exact hok
        rw [connectFeasible_substation hf hsub] at hcf
        split at hcf
        · simp at hcf
        · rename_i tf1 hsp
          split at hcf
          · simp at hcf
          · rename_i tf2 hupd
            obtain ⟨-, h2⟩ := Prod.mk.injEq .. ▸ Except.ok.inj hcf
            subst h2
            exact ⟨tf1, hsp, hupd⟩
    · simp at hok

theorem capOf_features_eq {tf1 tf2 : TF} (hf : tf1.features = tf2.features)
    (g : Nat) : capOf tf1 g = capOf tf2 g := by
  simp [capOf, hf]

theorem connect_substation_sound {tf tf' : TF} {gid : Nat} {f : Feature}
    {cap : ℚ} (hf : lookupF gid tf.features = some f)
    (hsub : f.ftype = "Substation") (hnd : f.lines.Nodup)
    (hm : membersAreLines tf f.lines) (hc0 : 0 ≤ cap)
    (hok : connect tf gid cap true false = .ok (true, tf')) :
    (f.lines.map (fun g => capOf tf g - capOf tf' g)).sum = cap ∧
    (∀ g ∈ f.lines, 0 ≤ capOf tf' g ∧ capOf tf' g ≤ capOf tf g) := by
  obtain ⟨tf1, hsp, hupd⟩ := connect_substation_inv hf hsub hok
  rw [connectToSubstation_run (membersAreLines_resolve hm)] at hsp
  -- extract the successful spreading run
  have hspread : ∃ k, spreadLoad tf (nonzeroLines tf f.lines) cap =
      .ok (tf1, k) := by
    split at hsp
    · simp at hsp
    · rename_i tfs k hrun
      obtain rfl := Except.ok.inj hsp
      exact ⟨k, hrun⟩
  obtain ⟨k, hrun⟩ := hspread
  obtain ⟨hval, hsum, hout⟩ := spreadGo_sound (nonzeroLines tf f.lines).length.succ
    (nonzeroLines_nodup hnd) (nonzeroLines_match hm)
    (fun p hp => (nonzeroLines_pos hm p hp).le) hc0 hrun
  -- the availability refresh does not change the features
  have hfeat : tf'.features = tf1.features := (updateAvailability_spec hupd).1
  have hcap' : ∀ g, capOf tf' g = capOf tf1 g := capOf_features_eq hfeat
  -- a member whose capacity is zero is dropped by np.nonzero and untouched
  have hzero_out : ∀ g ∈ f.lines, capOf tf g = 0 → capOf tf1 g = 0 := by
    intro g hg hz
    have hgnot : g ∉ (nonzeroLines tf f.lines).map Prod.fst := by
      rw [nonzeroLines_fst]
      intro hc
      have := (List.mem_filter.mp hc).2
      simp [hz] at this
    have := hout g hgnot
    unfold capOf
    rw [this]
    unfold capOf at hz
    exact hz
  -- a member with nonzero capacity appears in the work list
  have hmem_nz : ∀ g ∈ f.lines, capOf tf g ≠ 0 →
      (g, capOf tf g) ∈ nonzeroLines tf f.lines := by
    intro g hg hz
    rw [nonzeroLines_eq]
    exact List.mem_map_of_mem _ (List.mem_filter.mpr ⟨hg, by simpa using hz⟩)
  constructor
  · -- conservation: transfer the sum from the work list to the member list
    have hsplit := sum_map_filter_split f.lines
      (fun g => capOf tf g - capOf tf' g)
      (fun g => decide (capOf tf g ≠ 0))
    rw [← hsplit]
    have hzpart : ((f.lines.filter
        (fun g => !decide (capOf tf g ≠ 0))).map
          (fun g => capOf tf g - capOf tf' g)).sum = 0 := by
      apply List.sum_eq_zero
      intro x hx
      obtain ⟨g, hg, rfl⟩ := List.mem_map.mp hx
      have hz : capOf tf g = 0 := by
        have := (List.mem_filter.mp hg).2
        simpa using this
      rw [hz, hcap' g, hzero_out g (List.mem_of_mem_filter hg) hz, sub_zero]
    have hnzpart : ((f.lines.filter
        (fun g => decide (capOf tf g ≠ 0))).map
          (fun g => capOf tf g - capOf tf' g)).sum =
        ((nonzeroLines tf f.lines).map
          (fun p => p.2 - capOf tf1 p.1)).sum := by
      rw [nonzeroLines_eq, List.map_map]
      apply congrArg List.sum
      apply List.map_congr_left
      intro g _
      simp [hcap' g]
    rw [hzpart, hnzpart, hsum, add_zero]
  · intro g hg
    by_cases hz : capOf tf g = 0
    · rw [hcap' g, hzero_out g hg hz, hz]
      exact ⟨le_refl 0, le_refl 0⟩
    · obtain ⟨fg, c', hlf, hlf', hb1, hb2⟩ := hval (g, capOf tf g)
        (hmem_nz g hg hz)
      rw [hcap' g, capOf_eq hlf' rfl]
      exact ⟨hb1, hb2⟩

theorem connect_substation_ok {tf : TF} {gid : Nat} {f : Feature} {cap : ℚ}
    (hf : lookupF gid tf.features = some f) (hsub : f.ftype = "Substation")
    (hnd : f.lines.Nodup) (hm : membersAreLines tf f.lines)
    (hav : checkAvailability tf gid = .ok true) (hc0 : 0 ≤ cap)
    (hcS : cap ≤ (f.lines.map (capOf tf)).sum / 2) :
    (∃ tf', connect tf gid cap true false = .ok (true, tf')) ∨
    ((∀ g ∈ f.lines, capOf tf g = 0) ∧
      connect tf gid cap true false = .error .zeroDivisionError) := by
  have hS0 : 0 ≤ (f.lines.map (capOf tf)).sum := by
    apply List.sum_nonneg
    intro x hx
    obtain ⟨g, hg, rfl⟩ := List.mem_map.mp hx
    obtain ⟨fg, hlg, -, c, hc, hc0'⟩ := hm g hg
    rw [capOf_eq hlg hc]
    exact hc0'
  have havail : availableCapacity tf gid false =
      .ok (some ((f.lines.map (capOf tf)).sum / 2)) := by
    simp [availableCapacity, hf, hsub, substationCapacity_lines hm]
  have hconn : connect tf gid cap true false =
      connectFeasible tf gid cap true false := by
    rw [connect_eval hav havail]
    simp [not_lt.mpr hcS]
  rw [hconn, connectFeasible_substation hf hsub,
    connectToSubstation_run (membersAreLines_resolve hm)]
  by_cases hz : ∀ g ∈ f.lines, capOf tf g = 0
  · -- all member capacities are zero: np.nonzero keeps nothing and the
    -- equal-share division is a division by zero
    right
    have hnil : nonzeroLines tf f.lines = [] := by
      rw [nonzeroLines_eq]
      have : f.lines.filter (fun g => decide (capOf tf g ≠ 0)) = [] :=
        List.filter_eq_nil_iff.mpr (fun g hg => by simp [hz g hg])
      rw [this]
      rfl
    refine ⟨hz, ?_⟩
    rw [hnil]
    simp [spreadLoad, spreadGo, fillLines]
  · left
    push_neg at hz
    obtain ⟨g0, hg0, hg0nz⟩ := hz
    have hne : nonzeroLines tf f.lines ≠ [] := by
      have : (g0, capOf tf g0) ∈ nonzeroLines tf f.lines := by
        rw [nonzeroLines_eq]
        exact List.mem_map_of_mem _ (List.mem_filter.mpr ⟨hg0, by simpa using hg0nz⟩)
      exact List.ne_nil_of_mem this
    have hcS' : cap ≤ ((nonzeroLines tf f.lines).map Prod.snd).sum := by
      rw [nonzeroLines_sum]
      linarith
    obtain ⟨tfs, k, hrun, hk⟩ := spreadGo_ok (nonzeroLines tf f.lines).length.succ
      (le_refl _) (nonzeroLines_nodup hnd) (nonzeroLines_match hm)
      (nonzeroLines_pos hm) hc0 hcS' hne
    -- the spreading succeeded; the final availability refresh succeeds too
    obtain ⟨hval, hsum, hout⟩ := spreadGo_sound (nonzeroLines tf f.lines).length.succ
      (nonzeroLines_nodup hnd) (nonzeroLines_match hm)
      (fun p hp => (nonzeroLines_pos hm p hp).le) hc0 hrun
    have hgid_out : gid ∉ (nonzeroLines tf f.lines).map Prod.fst := by
      rw [nonzeroLines_fst]
      intro hc
      obtain ⟨fg, hlg, hTL, -⟩ := hm gid (List.mem_of_mem_filter hc)
      rw [hf] at hlg
      obtain rfl := Option.some.inj hlg
      rw [hsub] at hTL
      simp at hTL
    have hf1 : lookupF gid tfs.features = some f := by
      rw [hout gid hgid_out]
      exact hf
    have hm1 : membersAreLines tfs f.lines := by
      intro g hg
      by_cases hgz : capOf tf g = 0
      · have hgnot : g ∉ (nonzeroLines tf f.lines).map Prod.fst := by
          rw [nonzeroLines_fst]
          intro hc
          have := (List.mem_filter.mp hc).2
          simp [hgz] at this
        obtain ⟨fg, hlg, hTL, c, hc, hcge⟩ := hm g hg
        exact ⟨fg, by rw [hout g hgnot]; exact hlg, hTL, c, hc, hcge⟩
      · have hgmem : (g, capOf tf g) ∈ nonzeroLines tf f.lines := by
          rw [nonzeroLines_eq]
          exact List.mem_map_of_mem _
            (List.mem_filter.mpr ⟨hg, by simpa using hgz⟩)
        obtain ⟨fg, c', hlf, hlf', hb1, hb2⟩ := hval (g, capOf tf g) hgmem
        obtain ⟨fg0, hlg0, hTL, c0, hc0', -⟩ := hm g hg
        rw [hlf] at hlg0
        obtain rfl := Option.some.inj hlg0
        exact ⟨{ fg with availCap := some c' }, hlf', by simpa using hTL,
          c', rfl, hb1⟩
    have havail1 : availableCapacity tfs gid false =
        .ok (some ((f.lines.map (capOf tfs)).sum / 2)) := by
      simp [availableCapacity, hf1, hsub, substationCapacity_lines hm1]
    obtain ⟨tf2, hupd, -, -⟩ := updateAvailability_ok havail1 hf1
    refine ⟨tf2, ?_⟩
    have hrun' : spreadLoad tf (nonzeroLines tf f.lines) cap =
        .ok (tfs, k) := hrun
    rw [hrun']
    simp [hupd]

/-! Helper lemmas: how `connect` updates the availability mask. -/

theorem dispatch_frameOK {tf tf1 : TF} {gid : Nat} {f : Feature} {c : ℚ}
    {ll : Bool}
    (hdisp : (if f.ftype = "TransLine" then tfConnect tf gid c
       else if f.ftype = "Substation" then
         connectToSubstation tf f.lines c ll
       else if f.ftype = "LoadCen" then tfConnect tf gid c
       else .ok tf) = .ok tf1) : frameOK tf tf1 := by
  split at hdisp
  · exact tfConnect_frameOK hdisp
  · split at hdisp
    · exact connectToSubstation_frameOK hdisp
    · split at hdisp
      · exact tfConnect_frameOK hdisp
      · obtain rfl := Except.ok.inj hdisp
        exact frameOK_refl tf

theorem connectFeasible_mask {tf tf' : TF} {gid : Nat} {c : ℚ}
    {app ll : Bool} {b : Bool}
    (h : connectFeasible tf gid c app ll = .ok (b, tf')) (i : Nat) :
    (tf.mask.getD i true = false → tf'.mask.getD i true = false) ∧
    (gidIndex gid tf.features ≠ some i →
      tf'.mask.getD i true = tf.mask.getD i true) ∧
    (app = true → gidIndex gid tf.features = some i → i < tf.mask.length →
      (tf'.mask.getD i true = false ↔
        (tf.mask.getD i true = false ∨
          availableCapacity tf' gid false = .ok (some 0)))) := by
  unfold connectFeasible at h
  split at h
  · -- apply=True: dispatch then refresh the cache
    split at h
    · simp at h
    · rename_i f hf
      split at h
      · simp at h
      · rename_i tf1 hdisp
        split at h
        · simp at h
        · rename_i tf2 hupd
          obtain ⟨-, h2⟩ := Prod.mk.injEq .. ▸ Except.ok.inj h
          subst h2
          have hfr := dispatch_frameOK hdisp
          obtain ⟨hcfg1, hmask1, hidx1, -⟩ := hfr
          obtain ⟨hfeat2, -, ac, hac, hcases⟩ := updateAvailability_spec hupd
          have hacv : availableCapacity tf2 gid false = .ok ac := by
            rw [availableCapacity_features_eq hfeat2 gid false]
            exact hac
          rcases hcases with ⟨hz, j, hj, hset⟩ | ⟨hnz, hsame⟩
          · -- the capacity reached zero: the mask entry is flipped off
            rw [hidx1 gid] at hj
            refine ⟨?_, ?_, ?_⟩
            · intro hfalse
              rw [hset, hmask1]
              exact getD_set_false hfalse
            · intro hne
              have hji : j ≠ i := by
                intro hc
                exact hne (hc ▸ hj)
              rw [hset, hmask1]
              exact getD_set_ne false (fun hc => hji hc.symm)
            · intro _ hgi hlen
              rw [hgi] at hj
              have hji : i = j := Option.some.inj hj
              subst hji
              rw [hset, hmask1]
              constructor
              · intro _
                right
                rw [hacv, hz]
              · intro _
                exact getD_set_self hlen
          · -- the capacity is still positive: the mask is unchanged
            refine ⟨?_, ?_, ?_⟩
            · intro hfalse
              rw [hsame, hmask1]
              exact hfalse
            · intro _
              rw [hsame, hmask1]
            · intro _ hgi hlen
              rw [hsame, hmask1, hacv]
              have hne : ¬ ((Except.ok ac : Except Err (Option ℚ)) = .ok (some (0:ℚ))) := by
                intro hc
                exact hnz (Except.ok.inj hc)
              simp [hne]
  · -- apply=False: no mutation at all
    rename_i happ
    obtain ⟨-, h2⟩ := Prod.mk.injEq .. ▸ Except.ok.inj h
    subst h2
    exact ⟨fun hf => hf, fun _ => rfl, fun ha _ _ => absurd ha happ⟩

/-! Helper lemmas: the running maximum is the largest member capacity. -/

theorem le_foldr_max : ∀ (xs : List ℚ) (b : ℚ), b ≤ xs.foldr max b := by
  intro xs b
  induction xs with
  | nil => exact le_refl b
  | cons x xs ih => exact le_trans ih (le_max_right x _)

theorem mem_le_foldr_max : ∀ {xs : List ℚ} {b x : ℚ}, x ∈ xs →
    x ≤ xs.foldr max b := by
  intro xs
  induction xs with
  | nil => intro b x hx; simp at hx
  | cons y ys ih =>
    intro b x hx
    rcases List.mem_cons.mp hx with rfl | hx'
    · exact le_max_left x _
    · exact le_trans (ih hx') (le_max_right y _)

theorem foldr_max_mem : ∀ {xs : List ℚ}, xs ≠ [] → (∀ x ∈ xs, 0 ≤ x) →
    xs.foldr max 0 ∈ xs := by
  intro xs
  induction xs with
  | nil => intro h _; exact absurd rfl h
  | cons y ys ih =>
    intro _ hpos
    cases ys with
    | nil =>
      simp [max_eq_left (hpos y (by simp))]
    | cons z zs =>
      rcases le_total ((z :: zs).foldr max 0) y with hle | hle
      · simp only [List.foldr_cons] at *
        rw [max_eq_left hle]
        exact List.mem_cons_self y _
      · simp only [List.foldr_cons] at *
        rw [max_eq_right hle]
        exact List.mem_cons_of_mem y (ih (by simp)
          (fun x hx => hpos x (by simp [List.mem_cons.mp hx])))

theorem clamp_eq_min (ll : Bool) (M T : ℚ) :
    (if ll = true ∧ M < T then M else T) = if ll = true then min T M else T := by
  by_cases hll : ll = true
  · by_cases hlt : M < T
    · simp [hll, hlt, min_eq_right hlt.le]
    · simp [hll, hlt, min_eq_left (not_lt.mp hlt)]
  · simp [hll]

theorem memberLineCaps_nonneg {tf : TF} : ∀ {ms : List Nat},
    (∀ g ∈ ms, ∃ fg, lookupF g tf.features = some fg ∧
      (fg.ftype = "TransLine" → ∃ c, fg.availCap = some c ∧ 0 ≤ c)) →
    ∀ x ∈ memberLineCaps tf ms, 0 ≤ x := by
  intro ms
  induction ms with
  | nil => intro _ x hx; simp [memberLineCaps] at hx
  | cons g gs ih =>
    intro hm x hx
    obtain ⟨fg, hlg, himp⟩ := hm g (by simp)
    have htail := ih (fun g' hg' => hm g' (by simp [hg']))
    by_cases hTL : fg.ftype = "TransLine"
    · obtain ⟨c, hc, hc0⟩ := himp hTL
      have hstep : memberLineCaps tf (g :: gs) = c :: memberLineCaps tf gs := by
        simp [memberLineCaps, List.filterMap_cons, hlg, hTL, hc]
      rw [hstep] at hx
      rcases List.mem_cons.mp hx with rfl | hx'
      · exact hc0
      · exact htail x hx'
    · have hstep : memberLineCaps tf (g :: gs) = memberLineCaps tf gs := by
        simp [memberLineCaps, List.filterMap_cons, hlg, hTL]
      rw [hstep] at hx
      exact htail x hx

theorem memberLineCaps_isSome {tf : TF} {ms : List Nat}
    (hm : ∀ g ∈ ms, ∃ fg, lookupF g tf.features = some fg ∧
      (fg.ftype = "TransLine" → ∃ c, fg.availCap = some c ∧ 0 ≤ c)) :
    ∀ g ∈ ms, ∃ fg, lookupF g tf.features = some fg ∧
      (fg.ftype = "TransLine" → (fg.availCap).isSome) := by
  intro g hg
  obtain ⟨fg, hlg, himp⟩ := hm g hg
  refine ⟨fg, hlg, fun hTL => ?_⟩
  obtain ⟨c, hc, -⟩ := himp hTL
  simp [hc]

/-! The claims. -/

/-- C1: for a substation `connect(gid, capacity, apply=True)` in
non-line-limited mode that is reported feasible (returns True), the
load-spreading step conserves capacity: the member TransLines' stored
capacities drop by amounts summing exactly to the requested capacity, and no
member line's drop exceeds its available capacity as it stood at the start of
the call (equivalently, every member ends between 0 and its starting
capacity). -/
theorem C1_substation_spread_conserves (tf tf' : TF) (gid : Nat) (f : Feature)
    (cap : ℚ) (hf : lookupF gid tf.features = some f)
    (hsub : f.ftype = "Substation") (hnd : f.lines.Nodup)
    (hm : membersAreLines tf f.lines) (hc0 : 0 ≤ cap)
    (hok : connect tf gid cap true false = .ok (true, tf')) :
    (f.lines.map (fun g => capOf tf g - capOf tf' g)).sum = cap ∧
    ∀ g ∈ f.lines, 0 ≤ capOf tf' g ∧ capOf tf' g ≤ capOf tf g :=
  connect_substation_sound hf hsub hnd hm hc0 hok

/-- C1 witness: the conservation property at a concrete substation (member
capacities 2 and 10, request 6: the spread reserves 2 + 4 = 6). -/
theorem C1_substation_spread_conserves_witness :
    (([1, 2].map (fun g => capOf tfDrain g - capOf tfDrainAfter g)).sum =
      (6:ℚ)) ∧
    ∀ g ∈ [1, 2], 0 ≤ capOf tfDrainAfter g ∧
      capOf tfDrainAfter g ≤ capOf tfDrain g :=
  C1_substation_spread_conserves tfDrain tfDrainAfter 0
    ⟨"Substation", none, [1, 2]⟩ 6 rfl rfl (by decide)
    (by
      intro g hg
      rcases List.mem_cons.mp hg with rfl | hg'
      · exact ⟨⟨"TransLine", some 2, []⟩, rfl, rfl, 2, rfl, by norm_num⟩
      · rcases List.mem_cons.mp hg' with rfl | hg''
        · exact ⟨⟨"TransLine", some 10, []⟩, rfl, rfl, 10, rfl, by norm_num⟩
        · simp at hg'')
    (by norm_num)
    (by
      norm_num [connect, checkAvailability, gidIndex, availableCapacity,
        lookupF, substationCapacity, subCapAux, connectFeasible,
        connectToSubstation, getLineCaps, spreadLoad, spreadGo, fillLines,
        fillGo, tfConnect, setCap, connectEach, updateAvailability, tfDrain,
        tfDrainAfter, List.getD])

/-- C2 counterexample: the spec example requests capacity 10 from a
substation whose member lines hold 10 and 3, but the substation's derived
available capacity is (10 + 3) / 2 = 6.5, so `connect(0, 10, apply=True)` is
reported infeasible and mutates nothing — the final member capacities are 10
and 3, not 3 and 0. -/
theorem C2_counterexample :
    availableCapacity tfTwoLines 0 false = .ok (some (13/2)) ∧
    connect tfTwoLines 0 10 true false = .ok (false, tfTwoLines) := by
  constructor
  · norm_num [availableCapacity, lookupF, substationCapacity, subCapAux,
      tfTwoLines]
  · norm_num [connect, checkAvailability, gidIndex, availableCapacity,
      lookupF, substationCapacity, subCapAux, tfTwoLines, List.getD]

/-- C2 (amended): the `connect` call with capacity 10 fails the feasibility
gate (10 > 13/2) and leaves both lines untouched; the load-spreading step
itself (`_connect_to_substation`, as invoked for a feasible request), applied
to the member lines 10 and 3 with capacity 10, fills the capacity-3 line
entirely and reserves the remaining 7 from the other line, ending with member
capacities 3 and 0. -/
theorem C2_amended_spread_example :
    (connectToSubstation tfTwoLines [1, 2] 10 false).map
      (fun tf1 => (capOf tf1 1, capOf tf1 2)) = .ok (3, 0) := by
  norm_num [connectToSubstation, getLineCaps, lookupF, spreadLoad, spreadGo,
    fillLines, fillGo, tfConnect, setCap, connectEach, capOf, Except.map,
    tfTwoLines]

/-- C3: on a simple feature (TransLine or LoadCen) with stored capacity `a`
and the availability flag set, `connect(gid, c, apply=True)` with `c ≤ a`
returns True and leaves `available_capacity(gid) = a - c` exactly, while a
request with `c > a` returns False and leaves the state untouched (so
`available_capacity(gid) = a`). -/
theorem C3_simple_connect_exact (tf : TF) (gid : Nat) (f : Feature)
    (a c : ℚ) (ll : Bool) (hf : lookupF gid tf.features = some f)
    (ht : f.ftype = "TransLine" ∨ f.ftype = "LoadCen")
    (ha : f.availCap = some a) (hav : checkAvailability tf gid = .ok true) :
    (c ≤ a → ∃ tf', connect tf gid c true ll = .ok (true, tf') ∧
      availableCapacity tf' gid ll = .ok (some (a - c))) ∧
    (a < c → connect tf gid c true ll = .ok (false, tf) ∧
      availableCapacity tf gid ll = .ok (some a)) := by
  have hns : ¬ f.ftype = "Substation" := by
    rcases ht with h | h <;> rw [h] <;> simp
  have hac : availableCapacity tf gid ll = .ok (some a) := by
    rw [availableCapacity_simple hf hns, ha]
  constructor
  · intro hca
    obtain ⟨tf2, hcf, hfeat, hcfg⟩ := connectFeasible_simple hf ht ha hca
    refine ⟨tf2, ?_, ?_⟩
    · rw [connect_eval hav hac]
      simp only [gt_iff_lt, not_lt.mpr hca, if_false]
      exact hcf
    · rw [availableCapacity_features_eq hfeat gid ll]
      exact availableCapacity_setCap_simple hf hns _ ll
  · intro hlt
    refine ⟨?_, hac⟩
    rw [connect_eval hav hac]
    simp [hlt]

/-- C3 witness: the spec example — a TransLine built from a table row with
`ac_cap=100` and fraction 1/10 starts at capacity 10; connecting 5 leaves
exactly 5. -/
theorem C3_simple_connect_exact_witness :
    (5:ℚ) ≤ 10 ∧ ∃ tf', connect tfLine 3 5 true false = .ok (true, tf') ∧
      availableCapacity tf' 3 false = .ok (some 5) := by
  have hf : lookupF 3 tfLine.features = some ⟨"TransLine", some 10, []⟩ := by
    norm_num [tfLine, featuresFromTable, groupGids, firstRowFor, featureOfRow,
      rowLine, List.insertionSort, List.orderedInsert, List.dedup,
      List.find?, List.filterMap, Option.map, lookupF]
  have hav : checkAvailability tfLine 3 = .ok true := by
    norm_num [checkAvailability, gidIndex, tfLine, featuresFromTable,
      groupGids, firstRowFor, featureOfRow, rowLine, List.insertionSort,
      List.orderedInsert, List.dedup, List.find?, List.filterMap, Option.map,
      List.getD]
  refine ⟨by norm_num, ?_⟩
  obtain ⟨tf', h1, h2⟩ := (C3_simple_connect_exact tfLine 3
    ⟨"TransLine", some 10, []⟩ 10 5 false hf (Or.inl rfl) rfl hav).1
    (by norm_num)
  refine ⟨tf', h1, ?_⟩
  rw [h2]
  norm_num

/-- C4 counterexample: a feasible substation `connect(0, 6, apply=True)` on
member lines with capacities 2 and 10 drains member line 1 to capacity 0, yet
`check_availability(1)` still returns True — the availability flag is only
refreshed for the target gid, so it is NOT false exactly when the capacity is
0. -/
theorem C4_counterexample :
    connect tfDrain 0 6 true false = .ok (true, tfDrainAfter) ∧
    availableCapacity tfDrainAfter 1 false = .ok (some 0) ∧
    checkAvailability tfDrainAfter 1 = .ok true := by
  refine ⟨?_, ?_, ?_⟩
  · norm_num [connect, checkAvailability, gidIndex, availableCapacity,
      lookupF, substationCapacity, subCapAux, connectFeasible,
      connectToSubstation, getLineCaps, spreadLoad, spreadGo, fillLines,
      fillGo, tfConnect, setCap, connectEach, updateAvailability, tfDrain,
      tfDrainAfter, List.getD]
  · norm_num [availableCapacity, lookupF, tfDrainAfter]
  · norm_num [checkAvailability, gidIndex, tfDrainAfter, List.getD]

/-- C4 (amended): a `connect` call never flips a mask entry from false back
to true, and it never touches any mask entry other than the one at the target
gid's index; for the target gid itself, when the call applies a feasible
reservation (returns True), its flag is false afterwards iff it was already
false or the recomputed available capacity (non-line-limited) of the target
is exactly 0.  Member lines drained to 0 through a substation spread keep a
true flag, since their indices differ from the target's. -/
theorem C4_mask_flip_behavior (tf tf' : TF) (gid : Nat) (c : ℚ)
    (app ll b : Bool) (i : Nat)
    (h : connect tf gid c app ll = .ok (b, tf')) :
    (tf.mask.getD i true = false → tf'.mask.getD i true = false) ∧
    (gidIndex gid tf.features ≠ some i →
      tf'.mask.getD i true = tf.mask.getD i true) ∧
    (app = true → b = true → gidIndex gid tf.features = some i →
      i < tf.mask.length →
      (tf'.mask.getD i true = false ↔
        (tf.mask.getD i true = false ∨
          availableCapacity tf' gid false = .ok (some 0)))) := by
  unfold connect at h
  split at h
  · simp at h
  · split at h
    · split at h
      · simp at h
      · split at h
        · split at h
          · obtain ⟨h1, h2⟩ := Prod.mk.injEq .. ▸ Except.ok.inj h
            subst h2
            exact ⟨fun hf => hf, fun _ => rfl,
              fun _ hb _ _ => absurd hb.symm (by rw [← h1]; simp)⟩
          · obtain ⟨c1, c2, c3⟩ := connectFeasible_mask h i
            exact ⟨c1, c2, fun ha _ => c3 ha⟩
        · obtain ⟨c1, c2, c3⟩ := connectFeasible_mask h i
          exact ⟨c1, c2, fun ha _ => c3 ha⟩
    · obtain ⟨h1, h2⟩ := Prod.mk.injEq .. ▸ Except.ok.inj h
      subst h2
      exact ⟨fun hf => hf, fun _ => rfl,
        fun _ hb _ _ => absurd hb.symm (by rw [← h1]; simp)⟩

/-- C4 witness: the amended mask behaviour at a concrete drained TransLine
(connect 5 on capacity 5 flips the target's own flag off). -/
theorem C4_mask_flip_behavior_witness :
    (tfSmall.mask.getD 0 true = false →
      tfSmallAfter.mask.getD 0 true = false) ∧
    (gidIndex 3 tfSmall.features ≠ some 0 →
      tfSmallAfter.mask.getD 0 true = tfSmall.mask.getD 0 true) ∧
    (true = true → true = true → gidIndex 3 tfSmall.features = some 0 →
      0 < tfSmall.mask.length →
      (tfSmallAfter.mask.getD 0 true = false ↔
        (tfSmall.mask.getD 0 true = false ∨
          availableCapacity tfSmallAfter 3 false = .ok (some 0)))) :=
  C4_mask_flip_behavior tfSmall tfSmallAfter 3 5 true false true 0
    (by
      norm_num [connect, checkAvailability, gidIndex, availableCapacity,
        lookupF, connectFeasible, tfConnect, setCap, updateAvailability,
        tfSmall, tfSmallAfter, List.getD, List.set])

/-- C5: a substation's derived available capacity is the sum of the
capacities of its member TransLines divided by 2; with the line-limited flag
it is additionally clamped to the largest single member TransLine capacity
(the running maximum is an upper bound of all member capacities and is
attained when there is any member); members that are not TransLines
contribute nothing to the sum and each produces one warning. -/
theorem C5_substation_derived_capacity (tf : TF) (gid : Nat) (f : Feature)
    (ll : Bool) (hf : lookupF gid tf.features = some f)
    (hsub : f.ftype = "Substation")
    (hm : ∀ g ∈ f.lines, ∃ fg, lookupF g tf.features = some fg ∧
      (fg.ftype = "TransLine" → ∃ c, fg.availCap = some c ∧ 0 ≤ c)) :
    availableCapacity tf gid ll =
      .ok (some (if ll = true then
          min ((memberLineCaps tf f.lines).sum / 2)
            ((memberLineCaps tf f.lines).foldr max 0)
        else (memberLineCaps tf f.lines).sum / 2)) ∧
    substationCapacity tf f.lines ll =
      .ok ((if ll = true then
          min ((memberLineCaps tf f.lines).sum / 2)
            ((memberLineCaps tf f.lines).foldr max 0)
        else (memberLineCaps tf f.lines).sum / 2),
        (f.lines.filter (fun g => !(memberIsTransLine tf g))).length) ∧
    (∀ x ∈ memberLineCaps tf f.lines,
      x ≤ (memberLineCaps tf f.lines).foldr max 0) ∧
    (memberLineCaps tf f.lines ≠ [] →
      (memberLineCaps tf f.lines).foldr max 0 ∈ memberLineCaps tf f.lines) := by
  have h1 := substationCapacity_spec ll (memberLineCaps_isSome hm)
  rw [clamp_eq_min] at h1
  refine ⟨?_, h1, fun x hx => mem_le_foldr_max hx,
    fun hne => foldr_max_mem hne (memberLineCaps_nonneg hm)⟩
  simp [availableCapacity, hf, hsub, h1]

/-- C5 witness: a substation with member TransLine capacities 4 and 10 plus a
LoadCen member: in line-limited mode the derived capacity is
min(14/2, 10) = 7 and the LoadCen member is counted as one warning. -/
theorem C5_substation_derived_capacity_witness :
    availableCapacity tfMixed 0 true = .ok (some (7:ℚ)) ∧
    substationCapacity tfMixed [1, 2, 3] true = .ok ((7:ℚ), 1) := by
  have h := C5_substation_derived_capacity tfMixed 0
    ⟨"Substation", none, [1, 2, 3]⟩ true rfl rfl
    (by
      intro g hg
      rcases List.mem_cons.mp hg with rfl | hg'
      · exact ⟨⟨"TransLine", some 4, []⟩, rfl,
          fun _ => ⟨4, rfl, by norm_num⟩⟩
      · rcases List.mem_cons.mp hg' with rfl | hg''
        · exact ⟨⟨"TransLine", some 10, []⟩, rfl,
            fun _ => ⟨10, rfl, by norm_num⟩⟩
        · rcases List.mem_cons.mp hg'' with rfl | hg3
          · exact ⟨⟨"LoadCen", some 7, []⟩, rfl, fun hTL => by simp at hTL⟩
          · simp at hg3)
  obtain ⟨hA, hB, -, -⟩ := h
  have hcaps : memberLineCaps tfMixed [1, 2, 3] = [4, 10] := by
    norm_num [memberLineCaps, List.filterMap_cons, lookupF, tfMixed]
  have hwarn : ([1, 2, 3].filter
      (fun g => !(memberIsTransLine tfMixed g))).length = 1 := by
    norm_num [List.filter_cons, memberIsTransLine, lookupF, tfMixed]
  rw [hcaps] at hA hB
  rw [hwarn] at hB
  constructor
  · rw [hA]
    norm_num [min_def]
  · rw [hB]
    norm_num [min_def]

/-- C6: with a capacity argument, `cost` returns the absent-value sentinel
exactly when the feasibility-only `connect(gid, c, apply=False)` reports
infeasible, and otherwise returns the numeric cost
`distance * line_cost * multiplier + tie_in_cost(kind)`. -/
theorem C6_cost_sentinel_iff_infeasible (tf tf2 : TF) (gid : Nat)
    (f : Feature) (d m c : ℚ) (ll : Bool) (b : Bool)
    (hf : lookupF gid tf.features = some f)
    (hc : connect tf gid c false ll = .ok (b, tf2)) :
    cost tf gid d m (some c) ll =
      .ok ((if b = true then
          some (calcCost d tf.cfg.lineCost (tieInFor tf.cfg f.ftype) m)
        else none), tf2) := by
  simp [cost, hf, hc]

/-- C6 witness: an infeasible request (99 against capacity 10) makes `cost`
return the sentinel. -/
theorem C6_cost_sentinel_iff_infeasible_witness :
    cost tfLine 3 10 1 (some 99) false =
      .ok ((if false = true then
          some (calcCost 10 tfLine.cfg.lineCost
            (tieInFor tfLine.cfg "TransLine") 1)
        else none), tfLine) := by
  have hf : lookupF 3 tfLine.features = some ⟨"TransLine", some 10, []⟩ := by
    norm_num [tfLine, featuresFromTable, groupGids, firstRowFor, featureOfRow,
      rowLine, List.insertionSort, List.orderedInsert, List.dedup,
      List.find?, List.filterMap, Option.map, lookupF]
  have hc : connect tfLine 3 99 false false = .ok (false, tfLine) := by
    norm_num [connect, checkAvailability, gidIndex, availableCapacity,
      lookupF, tfLine, featuresFromTable, groupGids, firstRowFor,
      featureOfRow, rowLine, List.insertionSort, List.orderedInsert,
      List.dedup, List.find?, List.filterMap, Option.map, List.getD]
  exact C6_cost_sentinel_iff_infeasible tfLine tfLine 3
    ⟨"TransLine", some 10, []⟩ 10 1 99 false false hf hc

/-- C7: `connect(gid, c, apply=False)` and `cost(gid, distance, multiplier,
capacity)` leave the catalog state (every capacity field and the availability
mask) unchanged: both return the input state itself, so repeated calls —
batch costing only ever calls `connect` with `apply=False` — never reserve
capacity. -/
theorem C7_readonly_paths_frame (tf : TF) (gid : Nat) (d m c : ℚ)
    (cap : Option ℚ) (ll : Bool) (p : Bool × TF) (q : Option ℚ × TF)
    (h1 : connect tf gid c false ll = .ok p)
    (h2 : cost tf gid d m cap ll = .ok q) :
    p.2 = tf ∧ q.2 = tf :=
  ⟨connect_noapply_frame h1, cost_state_frame h2⟩

/-- C7 witness: a feasibility-only connect and a cost query on the
one-TransLine catalog both return the state unchanged. -/
theorem C7_readonly_paths_frame_witness :
    ((true, tfLine) : Bool × TF).2 = tfLine ∧
    ((some (50670:ℚ), tfLine) : Option ℚ × TF).2 = tfLine :=
  C7_readonly_paths_frame tfLine 3 10 1 5 none false (true, tfLine)
    (some 50670, tfLine)
    (by
      norm_num [connect, checkAvailability, gidIndex, availableCapacity,
        lookupF, connectFeasible, tfLine, featuresFromTable, groupGids,
        firstRowFor, featureOfRow, rowLine, List.insertionSort,
        List.orderedInsert, List.dedup, List.find?, List.filterMap,
        Option.map, List.getD])
    (by
      norm_num [cost, calcCost, tieInFor, lookupF, tfLine, featuresFromTable,
        groupGids, firstRowFor, featureOfRow, rowLine, List.insertionSort,
        List.orderedInsert, List.dedup, List.find?, List.filterMap,
        Option.map])

/-- C8: when `connect` is called on a substation gid (non-line-limited) whose
members are TransLines with nonnegative capacities, with the availability
flag set and a request within the derived available capacity, the
`RuntimeError` raise inside the per-line `_connect` is unreachable: every
per-line reservation the spreading algorithm issues is at most that line's
current capacity.  (In the degenerate all-zero-members case the call dies
earlier with `ZeroDivisionError`, never with the reservation raise.) -/
theorem C8_per_line_raise_unreachable (tf : TF) (gid : Nat) (f : Feature)
    (cap : ℚ) (hf : lookupF gid tf.features = some f)
    (hsub : f.ftype = "Substation") (hnd : f.lines.Nodup)
    (hm : membersAreLines tf f.lines)
    (hav : checkAvailability tf gid = .ok true) (hc0 : 0 ≤ cap)
    (hcS : cap ≤ (f.lines.map (capOf tf)).sum / 2) :
    connect tf gid cap true false ≠ .error .runtimeError := by
  rcases connect_substation_ok hf hsub hnd hm hav hc0 hcS with
    ⟨tf', hok⟩ | ⟨-, herr⟩
  · rw [hok]
    simp
  · rw [herr]
    simp

/-- C8 witness: the concrete feasible substation request of capacity 6 never
reaches the per-line RuntimeError. -/
theorem C8_per_line_raise_unreachable_witness :
    connect tfDrain 0 6 true false ≠ .error .runtimeError :=
  C8_per_line_raise_unreachable tfDrain 0 ⟨"Substation", none, [1, 2]⟩ 6
    rfl rfl (by decide)
    (by
      intro g hg
      rcases List.mem_cons.mp hg with rfl | hg'
      · exact ⟨⟨"TransLine", some 2, []⟩, rfl, rfl, 2, rfl, by norm_num⟩
      · rcases List.mem_cons.mp hg' with rfl | hg''
        · exact ⟨⟨"TransLine", some 10, []⟩, rfl, rfl, 10, rfl, by norm_num⟩
        · simp at hg'')
    (by norm_num [checkAvailability, gidIndex, tfDrain, List.getD])
    (by norm_num)
    (by norm_num [capOf, lookupF, tfDrain])

/-- C9 counterexample: a substation whose only member line has capacity 0:
the request 0 passes the feasibility check (0 ≤ derived capacity 0) yet the
spreading loop raises ZeroDivisionError — its surviving line set is empty, so
the claim's division-never-by-zero guarantee fails in this degenerate case. -/
theorem C9_counterexample :
    connect tfZeroSub 0 0 true false = .error .zeroDivisionError := by
  norm_num [connect, checkAvailability, gidIndex, availableCapacity, lookupF,
    substationCapacity, subCapAux, connectFeasible, connectToSubstation,
    getLineCaps, spreadLoad, spreadGo, fillLines, fillGo, tfConnect, setCap,
    connectEach, updateAvailability, tfZeroSub, List.getD]

/-- C9 (amended): for a feasible substation request in non-line-limited mode,
provided at least one member line has nonzero capacity, the spreading loop
terminates successfully after at most n `_fill_lines` iterations, where n is
the number of member lines with nonzero capacity (the length of the
`np.nonzero`-kept work list); when every member capacity is zero the only
feasible request is 0 and the loop instead raises ZeroDivisionError. -/
theorem C9_spread_iteration_bound (tf : TF) (ms : List Nat) (cap : ℚ)
    (hnd : ms.Nodup) (hm : membersAreLines tf ms) (hc0 : 0 ≤ cap)
    (hcS : cap ≤ (ms.map (capOf tf)).sum / 2)
    (hnz : ∃ g ∈ ms, capOf tf g ≠ 0) :
    ∃ tf1 k, spreadLoad tf (nonzeroLines tf ms) cap = .ok (tf1, k) ∧
      k ≤ (nonzeroLines tf ms).length ∧
      connectToSubstation tf ms cap false = .ok tf1 := by
  have hS0 : 0 ≤ (ms.map (capOf tf)).sum := by
    apply List.sum_nonneg
    intro x hx
    obtain ⟨g, hg, rfl⟩ := List.mem_map.mp hx
    obtain ⟨fg, hlg, -, c, hcc, hc0'⟩ := hm g hg
    rw [capOf_eq hlg hcc]
    exact hc0'
  obtain ⟨g0, hg0, hg0nz⟩ := hnz
  have hne : nonzeroLines tf ms ≠ [] := by
    have : (g0, capOf tf g0) ∈ nonzeroLines tf ms := by
      rw [nonzeroLines_eq]
      exact List.mem_map_of_mem _
        (List.mem_filter.mpr ⟨hg0, by simpa using hg0nz⟩)
    exact List.ne_nil_of_mem this
  have hcS' : cap ≤ ((nonzeroLines tf ms).map Prod.snd).sum := by
    rw [nonzeroLines_sum]
    linarith
  obtain ⟨tfs, k, hrun, hk⟩ := spreadGo_ok (nonzeroLines tf ms).length.succ
    (le_refl _) (nonzeroLines_nodup hnd) (nonzeroLines_match hm)
    (nonzeroLines_pos hm) hc0 hcS' hne
  have hrun' : spreadLoad tf (nonzeroLines tf ms) cap = .ok (tfs, k) := hrun
  refine ⟨tfs, k, hrun', hk, ?_⟩
  rw [connectToSubstation_run (membersAreLines_resolve hm), hrun']

/-- C9 witness: the amended iteration bound at the concrete substation with
member capacities 2 and 10 and request 6 (two nonzero member lines). -/
theorem C9_spread_iteration_bound_witness :
    ∃ tf1 k, spreadLoad tfDrain (nonzeroLines tfDrain [1, 2]) 6 =
        .ok (tf1, k) ∧
      k ≤ (nonzeroLines tfDrain [1, 2]).length ∧
      connectToSubstation tfDrain [1, 2] 6 false = .ok tf1 :=
  C9_spread_iteration_bound tfDrain [1, 2] 6 (by decide)
    (by
      intro g hg
      rcases List.mem_cons.mp hg with rfl | hg'
      · exact ⟨⟨"TransLine", some 2, []⟩, rfl, rfl, 2, rfl, by norm_num⟩
      · rcases List.mem_cons.mp hg' with rfl | hg''
        · exact ⟨⟨"TransLine", some 10, []⟩, rfl, rfl, 10, rfl, by norm_num⟩
        · simp at hg'')
    (by norm_num)
    (by norm_num [capOf, lookupF, tfDrain])
    ⟨1, by simp, by norm_num [capOf, lookupF, tfDrain]⟩

/-- C10: `feature_costs` is documented to accept a DataFrame or a path to a
.csv/.json file, but its row loop iterates `trans_table.iterrows()` on the
raw argument: for any path input the constructor parses the file fine and the
loop then raises AttributeError (a `str` has no `.iterrows`), so no per-row
cost array is ever produced for path inputs. -/
theorem C10_path_input_crashes :
    featureCosts {} (.csvPath [rowLine]) none false =
      .error .attributeError := by
  norm_num [featureCosts, mkTF, parseTable]
